import Mathlib

/-!
Verification development for the `normalize_url` URL-normalization engine
(packages `un/pkg/url` and `un/internal/ip`).

Strings are modelled as lists of characters; each character stands for one
byte of the Go string (the engine operates on ASCII data, where Go's
byte-wise and rune-wise traversals coincide).  Functions from the Go
standard library that the engine calls (`strings.*`, `strconv.ParseUint`,
`net.ParseIP`, `net.IP.String`, `net/url.Parse`, `path/filepath.Clean`)
are modelled by Lean functions reproducing their documented behaviour.
-/

abbrev Str := List Char

def strOf (s : String) : Str := s.data

deriving instance DecidableEq for Except

/-! ## String utilities (models of Go `strings` functions) -/

/-- Model of `strings.HasPrefix s p`. -/
def startsWith : Str → Str → Bool
  | _, [] => true
  | [], _ :: _ => false
  | c :: cs, p :: ps => c == p && startsWith cs ps

/-- Model of `strings.HasSuffix s p`. -/
def endsWith (s p : Str) : Bool := startsWith s.reverse p.reverse

/-- Model of `strings.TrimLeft s cutset` for a one-character cutset. -/
def trimLeftChar (s : Str) (c : Char) : Str := s.dropWhile (· == c)

/-- Model of `strings.TrimPrefix`. -/
def trimLeading (s p : Str) : Str := if startsWith s p then s.drop p.length else s

/-- Model of `strings.TrimSuffix`. -/
def trimTrailing (s p : Str) : Str :=
  if endsWith s p then s.take (s.length - p.length) else s

/-- Model of `strings.Split s sep` for a one-character separator. -/
def splitOnChar (s : Str) (sep : Char) : List Str :=
  match s with
  | [] => [[]]
  | c :: cs =>
    match splitOnChar cs sep with
    | [] => [[c]]
    | r :: rs => if c == sep then [] :: r :: rs else (c :: r) :: rs

/-- Model of `strings.Cut s sep` for a one-character separator. -/
def cutChar (s : Str) (sep : Char) : Str × Str × Bool :=
  match s with
  | [] => ([], [], false)
  | c :: cs =>
    if c == sep then ([], cs, true)
    else
      let r := cutChar cs sep
      (c :: r.1, r.2.1, r.2.2)

/-- Model of `strings.Join parts sep`. -/
def joinWith (sep : Str) : List Str → Str
  | [] => []
  | [x] => x
  | x :: y :: xs => x ++ sep ++ joinWith sep (y :: xs)

/-- ASCII model of `strings.ToLower` for one character. -/
def toLowerChar (c : Char) : Char :=
  if 'A' ≤ c ∧ c ≤ 'Z' then Char.ofNat (c.toNat + 32) else c

/-- ASCII model of `strings.ToLower`. -/
def toLowerStr (s : Str) : Str := s.map toLowerChar

/-- Model of `strings.ReplaceAll s (String of a) rep` for a one-character pattern. -/
def expandChar (s : Str) (a : Char) (rep : Str) : Str :=
  (s.map (fun c => if c = a then rep else [c])).flatten

/-- Model of `strings.ReplaceAll q "%00" ""` (used by query normalization):
left to right, a `%00` occurrence is skipped, any other character copied. -/
def removeAll00 : Str → Str
  | [] => []
  | [c] => [c]
  | [c, d] => [c, d]
  | c :: d :: e :: rest =>
    if c = '%' ∧ d = '0' ∧ e = '0' then removeAll00 rest
    else c :: removeAll00 (d :: e :: rest)

/-- Model of `strings.Index s pat` (first index of a substring), as an option. -/
def idxOfSub (s pat : Str) : Option Nat :=
  if startsWith s pat then some 0
  else
    match s with
    | [] => none
    | _ :: cs => (idxOfSub cs pat).map (· + 1)

/-- Model of `strings.LastIndex s (String of c)` for a one-character pattern. -/
def lastIdxOf : Str → Char → Option Nat
  | [], _ => none
  | x :: xs, c =>
    match lastIdxOf xs c with
    | some j => some (j + 1)
    | none => if x = c then some 0 else none

/-- Model of `strings.Contains s pat` for substring `pat`. -/
def containsSub (s pat : Str) : Bool := (idxOfSub s pat).isSome

/-! ## The `ip` package: errors -/

/-- Error values produced by the `ip` package.  `emptyValue` is `ErrEmptyValue`,
`invalidIPv4` is `ErrInvalidIPv4`, `numSyntax`/`numRange` are the
`strconv.ParseUint` syntax and range errors forwarded by `parseNumber`,
`numTooBig` is the `errors.New("num too big for ip")` width error, and
`notIPv6` is the `errors.New("not IPv6")` error of `NormalizeIPv6`. -/
inductive IPErr
  | emptyValue
  | invalidIPv4
  | numSyntax
  | numRange
  | numTooBig
  | notIPv6
deriving DecidableEq, Repr

/-- ASCII/Latin-1 model of the whitespace set trimmed by `strings.TrimSpace`. -/
def isGoSpace (c : Char) : Bool :=
  c == ' ' || c == Char.ofNat 9 || c == Char.ofNat 10 || c == Char.ofNat 11 ||
  c == Char.ofNat 12 || c == Char.ofNat 13 || c == Char.ofNat 0x85 || c == Char.ofNat 0xA0

/-- Model of `strings.TrimSpace`. -/
def trimSpace (s : Str) : Str :=
  ((s.dropWhile isGoSpace).reverse.dropWhile isGoSpace).reverse

/-- Model of `getBase` from `ip.go`: `0x` prefix selects base 16, `0` prefix with
length greater than one selects base 8, otherwise base 10. -/
def getBase (s : Str) : Nat :=
  if startsWith s (strOf "0x") then 16
  else if startsWith s (strOf "0") && s.length != 1 then 8
  else 10

/-- Digit decoding of `strconv.ParseUint`. -/
def digitVal (c : Char) : Option Nat :=
  if '0' ≤ c ∧ c ≤ '9' then some (c.toNat - '0'.toNat)
  else if 'a' ≤ c ∧ c ≤ 'z' then some (c.toNat - 'a'.toNat + 10)
  else if 'A' ≤ c ∧ c ≤ 'Z' then some (c.toNat - 'A'.toNat + 10)
  else none

/-- Accumulating loop of `strconv.ParseUint` with `bitSize` 32: a digit invalid
for the base is a syntax error, exceeding `1<<32 - 1` is a range error. -/
def parseUintCore (base : Nat) : Str → Nat → Except IPErr Nat
  | [], acc => .ok acc
  | c :: cs, acc =>
    match digitVal c with
    | none => .error .numSyntax
    | some d =>
      if d ≥ base then .error .numSyntax
      else if acc * base + d ≥ 2 ^ 32 then .error .numRange
      else parseUintCore base cs (acc * base + d)

/-- Model of `strconv.ParseUint s base 32` for an explicitly given base. -/
def parseUintGo (s : Str) (base : Nat) : Except IPErr Nat :=
  if s = [] then .error .numSyntax else parseUintCore base s 0

/-- The width bound computed by `parseNumber`: `maxNum := 0xFF`, then
`maxNum *= 0xFF` once for each extra block. -/
def maxNumGo (blocksCount : Nat) : Nat :=
  (List.range (blocksCount - 1)).foldl (fun m _ => m * 0xFF) 0xFF

/-- The base-dispatch and `strconv.ParseUint` stage of `parseNumber`
(lines 70-86 of `ip.go`). -/
def parseUintSeg (s : Str) : Except IPErr Nat :=
  let base := getBase s
  if base = 16 then parseUintGo (s.drop 2) 16
  else if base = 8 then parseUintGo (s.drop 1) 8
  else parseUintGo s base

/-- Model of `parseNumber` from `ip.go`. -/
def parseNumber (s : Str) (blocksCount : Nat) : Except IPErr Nat :=
  match parseUintSeg s with
  | .error e => .error e
  | .ok num => if num > maxNumGo blocksCount then .error .numTooBig else .ok num

/-- Model of `strconv.Itoa` for natural numbers (accumulator form; the fuel
argument dominates the number of divisions by ten and never runs out when it
starts at least at `n + 1`). -/
def itoaRec : Nat → Nat → Str → Str
  | 0, _, acc => acc
  | f + 1, n, acc =>
    if n < 10 then Char.ofNat ('0'.toNat + n) :: acc
    else itoaRec f (n / 10) (Char.ofNat ('0'.toNat + n % 10) :: acc)

/-- Model of `strconv.Itoa`. -/
def itoa (n : Nat) : Str := itoaRec (n + 1) n []

/-- Model of `uint32ToIPv4` from `ip.go`: render the four big-endian bytes of a
32-bit value in dotted decimal (what `net.IP.String` prints for a 4-byte IP)
and keep the parts from index `needBlocks` on. -/
def uint32ToIPv4 (ip : Nat) (needBlocks : Nat) : Str :=
  let bytes := [ip / 2 ^ 24 % 256, ip / 2 ^ 16 % 256, ip / 2 ^ 8 % 256, ip % 256]
  joinWith (strOf ".") ((bytes.map itoa).drop needBlocks)

/-- The loop of `NormalizeIPv4` over all octets but the last: each is parsed
with `blocksCount = 1` and rendered as `Itoa(num) + "."`. -/
def parseFirstSegs : List Str → Except IPErr Str
  | [] => .ok []
  | seg :: rest =>
    match parseNumber seg 1 with
    | .error e => .error e
    | .ok num =>
      match parseFirstSegs rest with
      | .error e => .error e
      | .ok tail => .ok (itoa num ++ strOf "." ++ tail)

/-- Model of `NormalizeIPv4` from `ip.go`. -/
def NormalizeIPv4 (s0 : Str) : Except IPErr Str :=
  let s := trimSpace s0
  if s = [] then .error .emptyValue
  else
    let octets := splitOnChar s '.'
    if octets.length > 4 then .error .invalidIPv4
    else
      match parseFirstSegs octets.dropLast with
      | .error e => .error e
      | .ok row =>
        match parseNumber (octets.getLastD []) (5 - octets.length) with
        | .error e => .error e
        | .ok num => .ok (row ++ uint32ToIPv4 num (octets.length - 1))

/-! ## The `ip` package: IPv6 (models of `net.ParseIP` and `net.IP.String`) -/

/-- Model of `strings.Trim ip "[]"`. -/
def trimBrackets (s : Str) : Str :=
  (((s.dropWhile (fun c => c == '[' || c == ']')).reverse.dropWhile
      (fun c => c == '[' || c == ']')).reverse)

/-- Field loop of `netip.parseIPv4Fields`: decimal octets separated by dots,
each at most 255, without leading zeros; exactly four fields. -/
def parseV4Loop : Str → Nat → Nat → Nat → List Nat → Option (List Nat)
  | [], val, _digLen, pos, fields =>
    if pos < 3 then none else some (fields ++ [val])
  | c :: rest, val, digLen, pos, fields =>
    if '0' ≤ c ∧ c ≤ '9' then
      if digLen = 1 ∧ val = 0 then none
      else
        let v := val * 10 + (c.toNat - '0'.toNat)
        if v > 255 then none else parseV4Loop rest v (digLen + 1) pos fields
    else if c = '.' then
      if digLen = 0 ∨ rest = [] then none
      else if pos = 3 then none
      else parseV4Loop rest 0 0 (pos + 1) (fields ++ [val])
    else none

/-- Model of `netip.parseIPv4`, returning the four address bytes. -/
def parseIPv4n (s : Str) : Option (List Nat) := parseV4Loop s 0 0 0 []

def isHexC (c : Char) : Bool :=
  ('0' ≤ c ∧ c ≤ '9') || ('a' ≤ c ∧ c ≤ 'f') || ('A' ≤ c ∧ c ≤ 'F')

def hexDigitVal (c : Char) : Nat :=
  if '0' ≤ c ∧ c ≤ '9' then c.toNat - '0'.toNat
  else if 'a' ≤ c ∧ c ≤ 'f' then c.toNat - 'a'.toNat + 10
  else if 'A' ≤ c ∧ c ≤ 'F' then c.toNat - 'A'.toNat + 10
  else 0

def hexVal (ds : Str) : Nat := ds.foldl (fun acc c => acc * 16 + hexDigitVal c) 0

/-- Final fix-up of `netip.parseIPv6`: reject trailing garbage, expand the
`::` ellipsis with zero bytes, reject a `::` that expands to nothing. -/
def v6Finish (s : Str) (i : Nat) (ell : Option Nat) (ip : List Nat) : Option (List Nat) :=
  if s ≠ [] then none
  else if i < 16 then
    match ell with
    | none => none
    | some e => some (ip.take e ++ List.replicate (16 - i) 0 ++ ip.drop e)
  else if ell.isSome then none
  else some ip

/-- Main loop of `netip.parseIPv6`: hex groups of one to four digits separated
by colons, at most one `::`, optionally ending in an embedded IPv4 address.
The loop body runs while `i < 16` and `i` grows by at least two per iteration,
so a fuel of nine iterations is never exhausted. -/
def parseV6Loop : Nat → Str → Nat → Option Nat → List Nat → Option (List Nat)
  | 0, _, _, _, _ => none
  | f + 1, s, i, ell, ip =>
    if 16 ≤ i then v6Finish s i ell ip
    else
      let ds := s.takeWhile isHexC
      let rest := s.dropWhile isHexC
      if ds = [] then none
      else if ds.length > 4 then none
      else
        let acc := hexVal ds
        match rest with
        | '.' :: _ =>
          if ell.isNone ∧ i ≠ 12 then none
          else if i + 4 > 16 then none
          else
            match parseIPv4n s with
            | none => none
            | some f4 => v6Finish [] (i + 4) ell (ip ++ f4)
        | [] => v6Finish [] (i + 2) ell (ip ++ [acc / 256, acc % 256])
        | ':' :: rest2 =>
          if rest2 = [] then none
          else
            let ip2 := ip ++ [acc / 256, acc % 256]
            match rest2 with
            | ':' :: rest3 =>
              if ell.isSome then none
              else if rest3 = [] then v6Finish [] (i + 2) (some (i + 2)) ip2
              else parseV6Loop f rest3 (i + 2) (some (i + 2)) ip2
            | _ => parseV6Loop f rest2 (i + 2) ell ip2
        | _ => none

/-- Model of `netip.parseIPv6` (zone split handled by the caller),
returning the sixteen address bytes. -/
def parseIPv6n (s : Str) : Option (List Nat) :=
  match s with
  | ':' :: ':' :: rest =>
    if rest = [] then some (List.replicate 16 0) else parseV6Loop 9 rest 0 (some 0) []
  | _ => parseV6Loop 9 s 0 none []

/-- Model of `net.ParseIP` returning the 16-byte form: `netip.ParseAddr`
dispatches on the first `.`, `:` or `%`; IPv4 results are mapped into
`::ffff:a.b.c.d` form by `As16`; addresses with a zone are rejected by
`net.parseIP`. -/
def goParseIP (s : Str) : Option (List Nat) :=
  match s.find? (fun c => c == '.' || c == ':' || c == '%') with
  | some '.' => (parseIPv4n s).map
      (fun f => List.replicate 10 0 ++ [0xFF, 0xFF] ++ f)
  | some ':' => if s.contains '%' then none else parseIPv6n s
  | _ => none

/-- Lowercase hex digits (Go `hexDigit` table used by `appendHex`). -/
def lowerHexDigit (n : Nat) : Char :=
  if n < 10 then Char.ofNat ('0'.toNat + n) else Char.ofNat ('a'.toNat + n - 10)

def hexRec : Nat → Nat → Str → Str
  | 0, _, acc => acc
  | f + 1, n, acc =>
    if n < 16 then lowerHexDigit n :: acc
    else hexRec f (n / 16) (lowerHexDigit (n % 16) :: acc)

/-- Model of `appendHex`: lowercase hex without leading zeros. -/
def appendHex (n : Nat) : Str := hexRec (n + 1) n []

/-- The sixteen bytes paired into eight 16-bit groups. -/
def v6Groups : List Nat → List Nat
  | b0 :: b1 :: rest => (b0 * 256 + b1) :: v6Groups rest
  | _ => []

/-- All maximal runs of zero groups, as (start index, length) pairs;
`i` is the current index, `start`/`len` the run currently open. -/
def zeroRunsAux : List Nat → Nat → Nat → Nat → List (Nat × Nat)
  | [], _i, start, len => if 0 < len then [(start, len)] else []
  | g :: gs, i, start, len =>
    if g = 0 then zeroRunsAux gs (i + 1) (if len = 0 then i else start) (len + 1)
    else (if 0 < len then [(start, len)] else []) ++ zeroRunsAux gs (i + 1) 0 0

/-- The run selected by `net.IP.String`: the first run of strictly greatest
length, kept only when it spans at least two groups. -/
def bestZeroRun (gs : List Nat) : Option (Nat × Nat) :=
  let best := (zeroRunsAux gs 0 0 0).foldl
    (fun b r => if r.2 > b.2 then r else b) (0, 0)
  if best.2 ≥ 2 then some best else none

/-- Rendering loop of `net.IP.String` for IPv6: groups in lowercase hex
separated by colons, with the selected zero run compressed to `::`.  The index
runs from 0 to 8 and grows by at least one per iteration, so a fuel of nine
iterations is never exhausted. -/
def v6RenderGo : Nat → List Nat → Option (Nat × Nat) → Nat → Bool → Str
  | 0, _, _, _, _ => []
  | f + 1, gs, e, idx, first =>
    if 8 ≤ idx then []
    else
      match e with
      | some (e0, len) =>
        if idx = e0 then
          strOf "::" ++
            (if 8 ≤ e0 + len then []
             else appendHex (gs.getD (e0 + len) 0) ++ v6RenderGo f gs e (e0 + len + 1) false)
        else (if first then [] else [':']) ++ appendHex (gs.getD idx 0) ++
          v6RenderGo f gs e (idx + 1) false
      | none =>
        (if first then [] else [':']) ++ appendHex (gs.getD idx 0) ++
          v6RenderGo f gs e (idx + 1) false

def v6Render (gs : List Nat) (e : Option (Nat × Nat)) : Str := v6RenderGo 9 gs e 0 true

/-- Model of `net.IP.String` on a 16-byte IP: a v4-mapped address prints in
dotted decimal, anything else in compressed lowercase IPv6 form. -/
def ipStr (ip : List Nat) : Str :=
  if (ip.take 10).all (· = 0) ∧ ip.getD 10 0 = 0xFF ∧ ip.getD 11 0 = 0xFF then
    joinWith (strOf ".") ((ip.drop 12).map itoa)
  else
    let gs := v6Groups ip
    v6Render gs (bestZeroRun gs)

/-- Model of `NormalizeIPv6` from `ip.go`. -/
def NormalizeIPv6 (ip0 : Str) : Except IPErr Str :=
  let hasL := startsWith ip0 (strOf "[")
  let hasR := endsWith ip0 (strOf "]")
  let ip := trimBrackets ip0
  if ip = [] then .error .emptyValue
  else
    match goParseIP ip with
    | none => .error .notIPv6
    | some a =>
      .ok ((if hasL then strOf "[" else []) ++ ipStr a ++
           (if hasR then strOf "]" else []))

/-! ## The `url` package: errors and the scheme registry -/

/-- Error values surfaced by URL normalization.  `ctl` is the control-character
parse error, `escapeErr` is `url.EscapeError` ("invalid URL escape"),
`hostChar` is `url.InvalidHostError`, `port`/`bracket`/`userinfo`/
`missingScheme`/`firstSegColon` are the corresponding `net/url` parse errors,
`invalidHostIp` is `ErrInvalidHost` joined with an `ip` package error, and
`invalidPath` is `ErrInvalidPath` joined with an escape error. -/
inductive UErr
  | ctl
  | missingScheme
  | escapeErr
  | hostChar
  | port
  | bracket
  | userinfo
  | firstSegColon
  | invalidHostIp (e : IPErr)
  | invalidPath
deriving DecidableEq, Repr

/-- Modelled from the spec: the embedded `iana.txt` resource (379 lowercase
IANA URI scheme labels loaded into `IANASchemes` at startup) is not among the
provided sources; it is modelled as a finite set of lowercase IANA scheme
labels covering the schemes the spec exercises. -/
def ianaList : List Str :=
  [strOf "http", strOf "https", strOf "ftp", strOf "ftps", strOf "mailto",
   strOf "file", strOf "ws", strOf "wss", strOf "tel", strOf "urn",
   strOf "data", strOf "ssh", strOf "news", strOf "irc", strOf "gopher",
   strOf "imap", strOf "ldap", strOf "pop", strOf "rtsp", strOf "sip",
   strOf "smtp", strOf "snmp", strOf "nfs", strOf "git", strOf "mid",
   strOf "magnet", strOf "bitcoin", strOf "geo", strOf "sms", strOf "dns"]

/-- Model of `IANASchemes.IsValid`. -/
def ianaIsValid (s : Str) : Bool := ianaList.contains s

/-- `DefaultScheme` from `iana.go`. -/
def DefaultScheme : Str := strOf "http"

/-! ## Models of `net/url` escaping -/

/-- The escaping contexts of `net/url`. -/
inductive Mode
  | host
  | zone
  | path
  | pathSegment
  | userPassword
  | queryComponent
  | fragment
deriving DecidableEq

def isAlphaC (c : Char) : Bool := ('a' ≤ c ∧ c ≤ 'z') || ('A' ≤ c ∧ c ≤ 'Z')

def isDigitC (c : Char) : Bool := '0' ≤ c ∧ c ≤ '9'

/-- Model of `net/url.shouldEscape` (byte-level; a character stands for its
byte, and any character outside ASCII is escaped). -/
def shouldEscape (c : Char) (mode : Mode) : Bool :=
  if isAlphaC c || isDigitC c then false
  else if (mode = Mode.host || mode = Mode.zone) &&
      [Char.ofNat 33, '$', '&', Char.ofNat 39, '(', ')', '*', '+', ',', ';',
       '=', ':', '[', ']', '<', '>', Char.ofNat 34].contains c then false
  else if c = '-' || c = '_' || c = '.' || c = '~' then false
  else if ['$', '&', '+', ',', '/', ':', ';', '=', '?', '@'].contains c then
    match mode with
    | Mode.path => c = '?'
    | Mode.pathSegment => c = '/' || c = ';' || c = ',' || c = '?'
    | Mode.userPassword => c = '@' || c = '/' || c = '?' || c = ':'
    | Mode.queryComponent => true
    | Mode.fragment => false
    | _ => true
  else if mode = Mode.fragment &&
      [Char.ofNat 33, '(', ')', '*'].contains c then false
  else true

def unhexC (c : Char) : Nat := hexDigitVal c

/-- Model of `net/url.unescape`: decode `%XX` escapes (and `+` in query
context), with the host-specific restrictions on escaped and raw bytes. -/
def unescape (mode : Mode) : Str → Except UErr Str
  | [] => .ok []
  | c :: rest =>
    if c = '%' then
      match rest with
      | a :: b :: rest2 =>
        if ¬ (isHexC a ∧ isHexC b) then .error .escapeErr
        else if mode = Mode.host ∧ unhexC a < 8 ∧ ¬ (a = '2' ∧ b = '5') then
          .error .escapeErr
        else if mode = Mode.zone ∧ ¬ (a = '2' ∧ b = '5') ∧
            Char.ofNat (unhexC a * 16 + unhexC b) ≠ ' ' ∧
            shouldEscape (Char.ofNat (unhexC a * 16 + unhexC b)) Mode.host then
          .error .escapeErr
        else
          (unescape mode rest2).map (Char.ofNat (unhexC a * 16 + unhexC b) :: ·)
      | _ => .error .escapeErr
    else if c = '+' then
      (unescape mode rest).map
        ((if mode = Mode.queryComponent then ' ' else '+') :: ·)
    else if (mode = Mode.host ∨ mode = Mode.zone) ∧ c.toNat < 0x80 ∧
        shouldEscape c mode then
      .error .hostChar
    else (unescape mode rest).map (c :: ·)

/-- Go's `upperhex` table. -/
def upperHexDigit (n : Nat) : Char :=
  if n < 10 then Char.ofNat ('0'.toNat + n) else Char.ofNat ('A'.toNat + n - 10)

/-- Model of `net/url.escape` for one character. -/
def escapeChar (c : Char) (mode : Mode) : Str :=
  if shouldEscape c mode then
    if c = ' ' ∧ mode = Mode.queryComponent then ['+']
    else ['%', upperHexDigit (c.toNat / 16 % 16), upperHexDigit (c.toNat % 16)]
  else [c]

/-- Model of `net/url.escape`. -/
def escapeStr (s : Str) (mode : Mode) : Str := (s.map (escapeChar · mode)).flatten

/-- Model of `net/url.validEncoded`. -/
def validEncoded (s : Str) (mode : Mode) : Bool :=
  s.all fun c =>
    if [Char.ofNat 33, '$', '&', Char.ofNat 39, '(', ')', '*', '+', ',', ';',
        '=', ':', '@'].contains c then true
    else if c = '[' || c = ']' then true
    else if c = '%' then true
    else ¬ shouldEscape c mode

/-- Model of `net/url.validOptionalPort`. -/
def validOptionalPort (p : Str) : Bool :=
  match p with
  | [] => true
  | ':' :: rest => rest.all fun b => '0' ≤ b && b ≤ '9'
  | _ => false

/-- Model of `net/url.validUserinfo`. -/
def validUserinfo (s : Str) : Bool :=
  s.all fun r =>
    isAlphaC r || isDigitC r ||
    ['-', '.', '_', ':', '~', Char.ofNat 33, '$', '&', Char.ofNat 39, '(',
     ')', '*', '+', ',', ';', '=', '%', '@'].contains r

/-! ## Model of `net/url.Parse` -/

/-- The fields of `net/url.URL` used by the normalizer.  `opq` is the
`Opaque` field. -/
structure GoURL where
  scheme : Str
  opq : Str
  host : Str
  path : Str
  rawPath : Str
  forceQuery : Bool
  rawQuery : Str
  fragment : Str
deriving DecidableEq, Repr

def emptyURL : GoURL :=
  { scheme := [], opq := [], host := [], path := [], rawPath := [],
    forceQuery := false, rawQuery := [], fragment := [] }

/-- Model of `net/url.getScheme`; `acc` is the prefix scanned so far and
`orig` the whole input. -/
def getSchemeAux (orig : Str) : Str → Str → Except UErr (Str × Str)
  | _, [] => .ok ([], orig)
  | acc, c :: rest =>
    if isAlphaC c then getSchemeAux orig (acc ++ [c]) rest
    else if isDigitC c || c = '+' || c = '-' || c = '.' then
      if acc = [] then .ok ([], orig) else getSchemeAux orig (acc ++ [c]) rest
    else if c = ':' then
      if acc = [] then .error .missingScheme else .ok (acc, rest)
    else .ok ([], orig)

def getSchemeGo (raw : Str) : Except UErr (Str × Str) := getSchemeAux raw [] raw

/-- Model of `net/url.parseHost`. -/
def parseHostGo (host : Str) : Except UErr Str :=
  if startsWith host (strOf "[") then
    match lastIdxOf host ']' with
    | none => .error .bracket
    | some i =>
      let colonPort := host.drop (i + 1)
      if ¬ validOptionalPort colonPort then .error .port
      else
        let bh := host.take i
        match idxOfSub bh (strOf "%25") with
        | some z =>
          match unescape Mode.host (bh.take z) with
          | .error e => .error e
          | .ok host1 =>
            match unescape Mode.zone (bh.drop z) with
            | .error e => .error e
            | .ok host2 =>
              match unescape Mode.host (host.drop i) with
              | .error e => .error e
              | .ok host3 => .ok (host1 ++ host2 ++ host3)
        | none =>
          match unescape Mode.host host with
          | .error e => .error e
          | .ok h => .ok h
  else
    match lastIdxOf host ':' with
    | some i =>
      if ¬ validOptionalPort (host.drop i) then .error .port
      else
        match unescape Mode.host host with
        | .error e => .error e
        | .ok h => .ok h
    | none =>
      match unescape Mode.host host with
      | .error e => .error e
      | .ok h => .ok h

/-- Model of `net/url.parseAuthority`; the userinfo is validated and dropped,
only the host is returned. -/
def parseAuthorityGo (authority : Str) : Except UErr Str :=
  match lastIdxOf authority '@' with
  | none => parseHostGo authority
  | some i =>
    match parseHostGo (authority.drop (i + 1)) with
    | .error e => .error e
    | .ok host =>
      let userinfo := authority.take i
      if ¬ validUserinfo userinfo then .error .userinfo
      else if ¬ userinfo.contains ':' then
        match unescape Mode.userPassword userinfo with
        | .error e => .error e
        | .ok _ => .ok host
      else
        let c := cutChar userinfo ':'
        match unescape Mode.userPassword c.1 with
        | .error e => .error e
        | .ok _ =>
          match unescape Mode.userPassword c.2.1 with
          | .error e => .error e
          | .ok _ => .ok host

/-- Model of `(*url.URL).setPath`: returns the decoded `Path` and the
`RawPath` hint. -/
def setPathGo (p : Str) : Except UErr (Str × Str) :=
  match unescape Mode.path p with
  | .error e => .error e
  | .ok path => .ok (path, if escapeStr path Mode.path = p then [] else p)

/-- Model of `(*url.URL).EscapedPath`. -/
def escapedPathGo (path rawPath : Str) : Str :=
  if rawPath ≠ [] ∧ validEncoded rawPath Mode.path ∧
      unescape Mode.path rawPath = .ok path then rawPath
  else if path = strOf "*" then strOf "*"
  else escapeStr path Mode.path

/-- Model of `net/url.stringContainsCTLByte`. -/
def containsCTL (s : Str) : Bool := s.any fun c => c.toNat < 0x20 || c.toNat = 0x7f

/-- Authority-and-path stage of `net/url.parse` (after the query has been
split off): the opaque shortcut, the rootless-path colon check, the
`//authority` split and `setPath`. -/
def parseAfterQuery (scheme rest1 rawQuery : Str) (forceQuery : Bool) :
    Except UErr GoURL :=
  if ¬ startsWith rest1 (strOf "/") ∧ scheme ≠ [] then
    .ok { emptyURL with scheme := scheme, opq := rest1,
                        rawQuery := rawQuery, forceQuery := forceQuery }
  else
    if ¬ startsWith rest1 (strOf "/") ∧ scheme = [] ∧
        (cutChar rest1 '/').1.contains ':' then
      .error .firstSegColon
    else
      let hasAuthority :=
        (scheme ≠ [] ∨ ¬ startsWith rest1 (strOf "///")) ∧
          startsWith rest1 (strOf "//")
      let authority := if hasAuthority then (cutChar (rest1.drop 2) '/').1 else []
      let rest2 :=
        if hasAuthority then
          let t := rest1.drop 2
          if t.contains '/' then '/' :: (cutChar t '/').2.1 else []
        else rest1
      if hasAuthority then
        match parseAuthorityGo authority with
        | .error e => .error e
        | .ok host =>
          match setPathGo rest2 with
          | .error e => .error e
          | .ok (path, rawPath) =>
            .ok { emptyURL with scheme := scheme, host := host, path := path,
                                rawPath := rawPath, rawQuery := rawQuery,
                                forceQuery := forceQuery }
      else
        match setPathGo rest2 with
        | .error e => .error e
        | .ok (path, rawPath) =>
          .ok { emptyURL with scheme := scheme, path := path,
                              rawPath := rawPath, rawQuery := rawQuery,
                              forceQuery := forceQuery }

/-- Model of `net/url.parse` with `viaRequest = false`. -/
def parseGo (rawURL : Str) : Except UErr GoURL :=
  if containsCTL rawURL then .error .ctl
  else if rawURL = strOf "*" then .ok { emptyURL with path := strOf "*" }
  else
    match getSchemeGo rawURL with
    | .error e => .error e
    | .ok (scheme0, rest0) =>
      let scheme := toLowerStr scheme0
      if endsWith rest0 (strOf "?") ∧ ¬ (trimTrailing rest0 (strOf "?")).contains '?' then
        parseAfterQuery scheme (rest0.take (rest0.length - 1)) [] true
      else
        let c := cutChar rest0 '?'
        parseAfterQuery scheme c.1 c.2.1 false

/-- Model of `net/url.Parse`: split the fragment, parse, set the fragment. -/
def urlParseGo (rawURL : Str) : Except UErr GoURL :=
  let c := cutChar rawURL '#'
  match parseGo c.1 with
  | .error e => .error e
  | .ok url =>
    if c.2.1 = [] then .ok url
    else
      match unescape Mode.fragment c.2.1 with
      | .error e => .error e
      | .ok f => .ok { url with fragment := f }

/-- Model of `parseUrl` from `url.go`: on an "invalid URL escape" failure,
replace every `%` with `%25` and retry once. -/
def parseUrlGo (raw : Str) : Except UErr GoURL :=
  match urlParseGo raw with
  | .ok u => .ok u
  | .error e =>
    if e = .escapeErr then urlParseGo (expandChar raw '%' (strOf "%25"))
    else .error e

/-! ## The `url` package: normalization -/

/-- Model of `collapse` from `url.go` (inner loop; `marked` records a pending
run of `symbol`). -/
def collapseAux (symbol : Char) (trim : Bool) : Str → Bool → Str
  | [], marked => if marked ∧ ¬ trim then [symbol] else []
  | r :: rest, marked =>
    if r = symbol then collapseAux symbol trim rest true
    else if marked then symbol :: r :: collapseAux symbol trim rest false
    else r :: collapseAux symbol trim rest false

/-- Model of `collapse` from `url.go`: replace repeated consecutive occurrences
of `symbol` with one, dropping a trailing run when `trim` is set. -/
def collapseGo (s : Str) (symbol : Char) (trim : Bool) : Str :=
  collapseAux symbol trim s false

/-- Element processing of `path.Clean` (the unix behaviour of
`filepath.Clean`): empty and `.` elements vanish, `..` pops a stack element
when possible, everything else is pushed.  The stack is kept reversed. -/
def cleanStack (rooted : Bool) : List Str → List Str → List Str
  | stack, [] => stack
  | stack, e :: es =>
    if e = [] ∨ e = strOf "." then cleanStack rooted stack es
    else if e = strOf ".." then
      match stack with
      | [] => cleanStack rooted (if rooted then [] else [strOf ".."]) es
      | top :: rest =>
        if top = strOf ".." then cleanStack rooted (strOf ".." :: top :: rest) es
        else cleanStack rooted rest es
    else cleanStack rooted (e :: stack) es

/-- Model of `filepath.Clean` on unix (`path.Clean`). -/
def pathClean (p : Str) : Str :=
  if p = [] then strOf "."
  else
    let rooted := startsWith p (strOf "/")
    let stack := cleanStack rooted [] (splitOnChar p '/')
    let body := joinWith (strOf "/") stack.reverse
    if rooted then strOf "/" ++ body
    else if body = [] then strOf "." else body

/-- The per-segment `url.PathUnescape` loop of `normalizePath`: the first
failure aborts. -/
def unescapeParts : List Str → Except UErr (List Str)
  | [] => .ok []
  | p :: ps =>
    match unescape Mode.pathSegment p with
    | .error e => .error e
    | .ok d =>
      match unescapeParts ps with
      | .error e => .error e
      | .ok ds => .ok (d :: ds)

/-- Model of `normalizePath` from `url.go`. -/
def normalizePathGo (raw : Str) : Except UErr Str :=
  if raw = [] then .ok []
  else
    let p1 := pathClean raw
    let p2 := trimLeading p1 (strOf "/")
    let p3 := p2.map fun c => if c = Char.ofNat 92 then '/' else c
    let p4 := collapseGo p3 '/' true
    let parts := splitOnChar p4 '/'
    match unescapeParts parts with
    | .error _ => .error .invalidPath
    | .ok parts2 =>
      let p5 := joinWith (strOf "/") (parts2.map toLowerStr)
      if p5 = strOf "*" then .ok [] else .ok p5

/-- Model of `normalizeQuery` from `url.go`. -/
def normalizeQueryGo (raw : Str) : Except UErr Str :=
  if raw = [] then .ok []
  else
    let q1 := expandChar raw '+' (strOf "%2B")
    let q2 := removeAll00 q1
    let q3 :=
      match unescape Mode.queryComponent q2 with
      | .ok uq => if uq ≠ [] then uq else q2
      | .error _ => q2
    let q4 := collapseGo q3 '/' false
    .ok (toLowerStr q4)

/-- The `HostPort` record of `url.go`. -/
structure HostPort where
  host : Str
  portStr : Str
  isIP : Bool
deriving DecidableEq, Repr

/-- Model of `normalizeHost` from `url.go`. -/
def normalizeHostGo (raw : Str) : Except UErr HostPort :=
  if raw = [] then .ok ⟨[], [], false⟩
  else
    let parts := splitOnChar (toLowerStr raw) ':'
    if parts.length > 2 then
      match NormalizeIPv6 raw with
      | .error e => .error (.invalidHostIp e)
      | .ok nip => .ok ⟨nip, [], true⟩
    else
      let host0 := parts.headD []
      let portV := if parts.length = 2 then parts.getLastD [] else []
      let host1 := collapseGo host0 '.' true
      let host2 := trimLeading host1 (strOf ".")
      let host3 := trimLeading host2 (strOf "www.")
      match NormalizeIPv4 host3 with
      | .ok nip => .ok ⟨nip, portV, true⟩
      | .error _ => .ok ⟨host3, portV, false⟩

/-- Model of `withScheme` from `url.go`. -/
def withScheme (raw : Str) : Str :=
  let c := cutChar raw ':'
  let scheme := toLowerStr c.1
  if ianaIsValid scheme then scheme ++ strOf "://" ++ trimLeftChar c.2.1 '/'
  else DefaultScheme ++ strOf "://" ++ trimLeftChar raw '/'

/-- Model of `prepare` from `url.go`. -/
def prepare (raw : Str) : Str := withScheme (trimLeftChar raw ' ')

/-- Model of `NormalizeURL` from `url.go`. -/
def NormalizeURL (raw0 : Str) : Except UErr Str :=
  let raw := prepare raw0
  match parseUrlGo raw with
  | .error e => .error e
  | .ok u =>
    match normalizeHostGo u.host with
    | .error e => .error e
    | .ok hp =>
      match normalizePathGo (escapedPathGo u.path u.rawPath) with
      | .error e => .error e
      | .ok path =>
        match normalizeQueryGo u.rawQuery with
        | .error e => .error e
        | .ok query =>
          let buf1 := hp.host ++
            (if hp.host ≠ [] ∧ path ≠ [] ∧ ¬ startsWith path (strOf "/")
             then strOf "/" else [])
          let buf2 := buf1 ++ path
          let needSuffixSlash :=
            (u.rawQuery ≠ [] ∨ endsWith raw (strOf "?")) ∧
              (endsWith u.path (strOf "/") ∨ endsWith u.path (strOf "."))
          let buf3 := buf2 ++
            (if needSuffixSlash ∧ ¬ endsWith path (strOf "/") then strOf "/" else [])
          let buf4 := buf3 ++
            (if query ≠ [] then strOf "?" ++ query
             else if u.forceQuery then strOf "?" else [])
          let res1 := collapseGo buf4 '/' false
          let res2 :=
            if endsWith res1 (strOf "/?") ∧ query.length < 2 ∧
                (u.fragment ≠ [] ∨ u.scheme ≠ []) then
              res1.take (res1.length - 2)
            else res1
          .ok (trimTrailing res2 (strOf "/."))

/-! ## Helper definitions for stating claims -/

/-- Whether an `Except` computation succeeded. -/
def isOkE {ε α : Type} : Except ε α → Bool
  | .ok _ => true
  | .error _ => false

/-- The numeric value of a digit string under base `b` (invalid digits count
as zero; used only to state range conditions). -/
def digitsVal (b : Nat) (s : Str) : Nat :=
  s.foldl (fun a c => a * b + (digitVal c).getD 0) 0

/-- The digit body of an IPv4 segment: the slice actually handed to
`strconv.ParseUint` by `parseNumber` (`str[2:]` after `0x`, `str[1:]` after a
leading `0` of a longer string, the whole segment otherwise). -/
def segBody (s : Str) : Str :=
  if getBase s = 16 then s.drop 2 else if getBase s = 8 then s.drop 1 else s

/-! ## Claim theorems -/

/-- C3: each listed numeric-IPv4 vector normalizes to the expected
dotted-decimal string. -/
theorem c3_theorem :
    NormalizeIPv4 (strOf "171978763") = .ok (strOf "10.64.48.11") ∧
    NormalizeIPv4 (strOf "0xa40300b") = .ok (strOf "10.64.48.11") ∧
    NormalizeIPv4 (strOf "0112.0175.0117.0150") = .ok (strOf "74.125.79.104") ∧
    NormalizeIPv4 (strOf "0xa.0x40.0x30.0xb") = .ok (strOf "10.64.48.11") ∧
    NormalizeIPv4 (strOf "30.31.8225") = .ok (strOf "30.31.32.33") ∧
    NormalizeIPv4 (strOf "30.2039841") = .ok (strOf "30.31.32.33") ∧
    NormalizeIPv4 (strOf "10.16.56.12") = .ok (strOf "10.16.56.12") := by
  decide

/-- C1 (counterexample): the fourth listed end-to-end pair fails on the code:
`https://WWW.Example.com//A/./B/../C/` normalizes to `example.com/a/c`
(the path cleanup drops the trailing slash and no rule re-adds it without a
query), not to `example.com/a/c/` as the claim states. -/
theorem c1_counterexample :
    NormalizeURL (strOf "https://WWW.Example.com//A/./B/../C/") =
      .ok (strOf "example.com/a/c") ∧
    strOf "example.com/a/c" ≠ strOf "example.com/a/c/" := by
  decide

/-- C1 (amended): the first three listed end-to-end pairs hold as stated, and
the fourth input normalizes to `example.com/a/c` (without the trailing
slash). -/
theorem c1_theorem :
    NormalizeURL (strOf "https://example.com") = .ok (strOf "example.com") ∧
    NormalizeURL (strOf "https://example.com:443/path?q=hello%20world") =
      .ok (strOf "example.com/path?q=hello world") ∧
    NormalizeURL (strOf "example.com") = .ok (strOf "example.com") ∧
    NormalizeURL (strOf "https://WWW.Example.com//A/./B/../C/") =
      .ok (strOf "example.com/a/c") := by
  decide

/-- C2 (counterexample): NormalizeURL is not idempotent.  On `x/a%2520b` it
succeeds with `x/a%20b`, but normalizing that output succeeds with `x/a b`,
a different string (each pass percent-decodes the path once). -/
theorem c2_counterexample :
    NormalizeURL (strOf "x/a%2520b") = .ok (strOf "x/a%20b") ∧
    NormalizeURL (strOf "x/a%20b") = .ok (strOf "x/a b") ∧
    strOf "x/a b" ≠ strOf "x/a%20b" := by
  decide

/-- C2 (amended): idempotence holds on the canonical outputs of the spec's
end-to-end examples (each is a fixed point of NormalizeURL), though not for
every input. -/
theorem c2_theorem :
    NormalizeURL (strOf "example.com") = .ok (strOf "example.com") ∧
    NormalizeURL (strOf "example.com/path?q=hello world") =
      .ok (strOf "example.com/path?q=hello world") ∧
    NormalizeURL (strOf "example.com/a/c") = .ok (strOf "example.com/a/c") ∧
    NormalizeURL [] = .ok [] := by
  decide

/-- C6: NormalizeIPv6 strips surrounding brackets, remembers on which side a
bracket was present, canonicalizes the inner literal, and reapplies the
brackets exactly on the sides where they were present; and each listed vector
holds. -/
theorem c6_theorem :
    (∀ s a, trimBrackets s ≠ [] → goParseIP (trimBrackets s) = some a →
      NormalizeIPv6 s =
        .ok ((if startsWith s (strOf "[") then strOf "[" else []) ++ ipStr a ++
             (if endsWith s (strOf "]") then strOf "]" else []))) ∧
    NormalizeIPv6 (strOf "2001:0000:11AA:0000:0000:0000:1234:0000") =
      .ok (strOf "2001:0:11aa::1234:0") ∧
    NormalizeIPv6 (strOf "[2001:0000:11AA:0000:0000:0000:1234:0000]") =
      .ok (strOf "[2001:0:11aa::1234:0]") ∧
    NormalizeIPv6 (strOf "2001:db8:3333:4444:5555:6666:7777:8888") =
      .ok (strOf "2001:db8:3333:4444:5555:6666:7777:8888") ∧
    NormalizeIPv6 (strOf "0000:0000:0000:0000:0000:0000:0000:0001") =
      .ok (strOf "::1") ∧
    NormalizeIPv6 (strOf "2002:7F0:01Fa::0001") = .ok (strOf "2002:7f0:1fa::1") := by
  refine ⟨?_, by decide, by decide, by decide, by decide, by decide⟩
  intro s a h1 h2
  unfold NormalizeIPv6
  simp only [h2, if_neg h1]

/-- C6 (witness): the bracket-structure part applied to `[::1]`. -/
theorem c6_witness :
    NormalizeIPv6 (strOf "[::1]") = .ok (strOf "[::1]") := by
  have h := c6_theorem.1 (strOf "[::1]") (List.replicate 14 0 ++ [0, 1])
    (by decide) (by decide)
  rw [h]
  decide

/-- C8 (counterexample): `1.2.3.4` is not an IPv6 literal (its inner string
does not parse as IPv6), yet NormalizeIPv6 succeeds on it, returning it
unchanged, because `net.ParseIP` also accepts dotted-decimal IPv4. -/
theorem c8_counterexample :
    NormalizeIPv6 (strOf "1.2.3.4") = .ok (strOf "1.2.3.4") ∧
    parseIPv6n (strOf "1.2.3.4") = none := by
  decide

/-- C8 (amended): NormalizeIPv6 fails with EmptyValue exactly when the input
is empty after bracket stripping, fails with the generic "not IPv6" error
exactly when the bracket-stripped inner string is non-empty but not parseable
as an IP address (IPv4 or IPv6) by `net.ParseIP`, and succeeds otherwise. -/
theorem c8_theorem :
    ∀ s, (NormalizeIPv6 s = .error .emptyValue ↔ trimBrackets s = []) ∧
      (NormalizeIPv6 s = .error .notIPv6 ↔
        trimBrackets s ≠ [] ∧ goParseIP (trimBrackets s) = none) ∧
      (isOkE (NormalizeIPv6 s) = true ↔
        trimBrackets s ≠ [] ∧ (goParseIP (trimBrackets s)).isSome = true) := by
  intro s
  unfold NormalizeIPv6
  by_cases h1 : trimBrackets s = []
  · simp [h1, isOkE]
  · simp only [if_neg h1]
    cases h2 : goParseIP (trimBrackets s) with
    | none => simp [h1, h2, isOkE]
    | some a => simp [h1, h2, isOkE]

/-- C8 (witness): the characterization applied to `[]` (empty after bracket
stripping). -/
theorem c8_witness : NormalizeIPv6 (strOf "[]") = .error .emptyValue :=
  (c8_theorem (strOf "[]")).1.mpr (by decide)

/-- C9: when the host text is non-empty and not routed to the IPv6 branch, a
failure of the IPv4 normalization attempt never makes normalizeHost fail: the
host keeps the processed textual hostname (lowercased, dots collapsed with a
trailing run trimmed, leading dot stripped, leading `www.` stripped), the
port is preserved, and `is_ip` stays false. -/
theorem c9_theorem :
    ∀ raw, raw ≠ [] →
      (splitOnChar (toLowerStr raw) ':').length ≤ 2 →
      isOkE (NormalizeIPv4
        (trimLeading (trimLeading
          (collapseGo ((splitOnChar (toLowerStr raw) ':').headD []) '.' true)
          (strOf ".")) (strOf "www."))) = false →
      normalizeHostGo raw =
        .ok ⟨trimLeading (trimLeading
               (collapseGo ((splitOnChar (toLowerStr raw) ':').headD []) '.' true)
               (strOf ".")) (strOf "www."),
             (if (splitOnChar (toLowerStr raw) ':').length = 2
              then (splitOnChar (toLowerStr raw) ':').getLastD [] else []),
             false⟩ := by
  intro raw h1 h2 h3
  unfold normalizeHostGo
  have hlen : ¬ (splitOnChar (toLowerStr raw) ':').length > 2 := by omega
  simp only [if_neg h1, if_neg hlen]
  cases h4 : NormalizeIPv4
      (trimLeading (trimLeading
        (collapseGo ((splitOnChar (toLowerStr raw) ':').headD []) '.' true)
        (strOf ".")) (strOf "www.")) with
  | ok v => rw [h4] at h3; simp [isOkE] at h3
  | error e => simp only [h4]

/-- C9 (witness): the theorem applied to host text `WWW..Example.com:8080`. -/
theorem c9_witness :
    normalizeHostGo (strOf "WWW..Example.com:8080") =
      .ok ⟨strOf "example.com", strOf "8080", false⟩ :=
  c9_theorem (strOf "WWW..Example.com:8080") (by decide) (by decide) (by decide)

/-- C10: NormalizeURL maps the empty string, and any string of only spaces,
to the empty string; scheme inference turns such an input into `http://`,
which parses to an empty host, path and query, and assembly emits nothing. -/
theorem c10_theorem :
    (∀ s, (∀ c ∈ s, c = ' ') → NormalizeURL s = .ok []) ∧
    prepare [] = strOf "http://" ∧
    urlParseGo (strOf "http://") =
      .ok { emptyURL with scheme := strOf "http" } := by
  refine ⟨?_, by decide, by decide⟩
  intro s h
  have hs : trimLeftChar s ' ' = [] := by
    apply List.dropWhile_eq_nil_iff.mpr
    intro x hx
    simp [h x hx]
  unfold NormalizeURL prepare
  rw [hs]
  decide

/-- C10 (witness): the theorem applied to a two-space input. -/
theorem c10_witness : NormalizeURL (strOf "  ") = .ok [] :=
  c10_theorem.1 (strOf "  ") (by decide)

/-! ## Lemmas on the IPv4 width check and decimal rendering -/
theorem maxNumGo_succ (k : Nat) : maxNumGo (k + 2) = maxNumGo (k + 1) * 255 := by
  unfold maxNumGo
  have h : k + 2 - 1 = (k + 1 - 1) + 1 := by omega
  rw [h, List.range_succ, List.foldl_append]
  norm_num

theorem maxNumGo_eq_pow : ∀ k, 1 ≤ k → maxNumGo k = 255 ^ k := by
  intro k
  induction k with
  | zero => intro h; omega
  | succ n ih =>
    intro _
    cases n with
    | zero => decide
    | succ m =>
      rw [maxNumGo_succ, ih (by omega)]
      ring

theorem itoa_lt10 (n : Nat) (h : n < 10) : itoa n = [Char.ofNat ('0'.toNat + n)] := by
  unfold itoa itoaRec
  simp [h]

theorem itoaRec_fuel : ∀ f g n acc, n < f → n < g → itoaRec f n acc = itoaRec g n acc := by
  intro f
  induction f with
  | zero => intro g n acc h; omega
  | succ f ih =>
    intro g n acc hf hg
    cases g with
    | zero => omega
    | succ g =>
      unfold itoaRec
      by_cases h10 : n < 10
      · simp [h10]
      · simp only [if_neg h10]
        have hn : n / 10 < n := Nat.div_lt_self (by omega) (by omega)
        exact ih g (n / 10) _ (by omega) (by omega)

theorem itoaRec_append : ∀ f n acc, n < f → itoaRec f n acc = itoa n ++ acc := by
  intro f
  induction f with
  | zero => intro n acc h; omega
  | succ f ih =>
    intro n acc hf
    by_cases h10 : n < 10
    · unfold itoaRec
      simp [h10, itoa_lt10 n h10]
    · have hn : n / 10 < n := Nat.div_lt_self (by omega) (by omega)
      have hstep : itoaRec (f + 1) n acc =
          itoaRec f (n / 10) (Char.ofNat ('0'.toNat + n % 10) :: acc) := by
        simp [itoaRec, h10]
      rw [hstep, ih (n / 10) _ (by omega)]
      have hrhs : itoa n = itoa (n / 10) ++ [Char.ofNat ('0'.toNat + n % 10)] := by
        show itoaRec (n + 1) n [] = _
        have hstep2 : itoaRec (n + 1) n [] =
            itoaRec n (n / 10) [Char.ofNat ('0'.toNat + n % 10)] := by
          simp [itoaRec, h10]
        rw [hstep2, itoaRec_fuel n f (n / 10) _ (by omega) (by omega),
          ih (n / 10) _ (by omega)]
      rw [hrhs, List.append_assoc, List.singleton_append]

theorem itoa_ge10 (n : Nat) (h : 10 ≤ n) :
    itoa n = itoa (n / 10) ++ [Char.ofNat ('0'.toNat + n % 10)] := by
  have hn : n / 10 < n := Nat.div_lt_self (by omega) (by omega)
  show itoaRec (n + 1) n [] = _
  have hstep : itoaRec (n + 1) n [] =
      itoaRec n (n / 10) [Char.ofNat ('0'.toNat + n % 10)] := by
    simp [itoaRec, show ¬ n < 10 by omega]
  rw [hstep, itoaRec_append n (n / 10) _ (by omega)]

theorem digitChar_spec (d : Nat) (h : d < 10) :
    digitVal (Char.ofNat ('0'.toNat + d)) = some d ∧
    '0' ≤ Char.ofNat ('0'.toNat + d) ∧ Char.ofNat ('0'.toNat + d) ≤ '9' := by
  interval_cases d <;> exact by decide

theorem itoa_chars : ∀ n, ∀ c ∈ itoa n, '0' ≤ c ∧ c ≤ '9' := by
  intro n
  induction n using Nat.strong_induction_on with
  | _ n ih =>
    intro c hc
    by_cases h10 : n < 10
    · rw [itoa_lt10 n h10] at hc
      simp only [List.mem_singleton] at hc
      subst hc
      exact (digitChar_spec n h10).2
    · rw [itoa_ge10 n (by omega)] at hc
      rcases List.mem_append.mp hc with h | h
      · exact ih (n / 10) (Nat.div_lt_self (by omega) (by omega)) c h
      · simp only [List.mem_singleton] at h
        subst h
        exact (digitChar_spec (n % 10) (by omega)).2

theorem itoa_ne_nil (n : Nat) : itoa n ≠ [] := by
  by_cases h : n < 10
  · rw [itoa_lt10 n h]; simp
  · rw [itoa_ge10 n (by omega)]; simp

theorem digitVal_ofNat (d : Nat) (h : d < 10) :
    digitVal (Char.ofNat (48 + d)) = some d := by
  interval_cases d <;> decide

theorem startsWith_cons_ne {c p : Char} (cs ps : Str) (h : c ≠ p) :
    startsWith (c :: cs) (p :: ps) = false := by
  simp [startsWith, h]

theorem itoa_head_ne_zero : ∀ n, 0 < n → ∀ c cs, itoa n = c :: cs → c ≠ '0' := by
  intro n
  induction n using Nat.strong_induction_on with
  | _ n ih =>
    intro hn c cs hc
    by_cases h10 : n < 10
    · rw [itoa_lt10 n h10] at hc
      have : c = Char.ofNat ('0'.toNat + n) := (List.cons.injEq _ _ _ _ ▸ hc).1.symm
      subst this
      interval_cases n
      all_goals first | omega | decide
    · rw [itoa_ge10 n (by omega)] at hc
      cases h' : itoa (n / 10) with
      | nil => exact absurd h' (itoa_ne_nil _)
      | cons d ds =>
        rw [h'] at hc
        have hcd : c = d := by
          simpa using (List.cons.injEq _ _ _ _ ▸ hc).1.symm
        subst hcd
        exact ih (n / 10) (Nat.div_lt_self (by omega) (by omega))
          (Nat.div_pos (by omega) (by omega)) c ds h'

theorem getBase_itoa (n : Nat) (h : 0 < n) : getBase (itoa n) = 10 := by
  cases hh : itoa n with
  | nil => exact absurd hh (itoa_ne_nil n)
  | cons c cs =>
    have hc := itoa_head_ne_zero n h c cs hh
    unfold getBase
    rw [show strOf "0x" = '0' :: 'x' :: [] from rfl,
        show strOf "0" = '0' :: [] from rfl,
        startsWith_cons_ne _ _ hc, startsWith_cons_ne _ _ hc]
    simp

theorem parseUintCore_append (b : Nat) :
    ∀ xs ys a m, parseUintCore b xs a = .ok m →
      parseUintCore b (xs ++ ys) a = parseUintCore b ys m := by
  intro xs
  induction xs with
  | nil =>
    intro ys a m h
    have : a = m := by simpa [parseUintCore] using h
    subst this
    rfl
  | cons c cs ih =>
    intro ys a m h
    cases hd : digitVal c with
    | none =>
      have e : parseUintCore b (c :: cs) a = .error .numSyntax := by
        simp [parseUintCore, hd]
      rw [e] at h
      exact absurd h (by simp)
    | some d =>
      by_cases h1 : d ≥ b
      · have e : parseUintCore b (c :: cs) a = .error .numSyntax := by
          simp only [parseUintCore, hd]
          rw [if_pos h1]
        rw [e] at h
        exact absurd h (by simp)
      · by_cases h2 : a * b + d ≥ 2 ^ 32
        · have e : parseUintCore b (c :: cs) a = .error .numRange := by
            simp only [parseUintCore, hd]
            rw [if_neg h1, if_pos h2]
          rw [e] at h
          exact absurd h (by simp)
        · have e1 : parseUintCore b (c :: cs) a = parseUintCore b cs (a * b + d) := by
            simp only [parseUintCore, hd]
            rw [if_neg h1, if_neg h2]
          have e2 : parseUintCore b ((c :: cs) ++ ys) a =
              parseUintCore b (cs ++ ys) (a * b + d) := by
            rw [List.cons_append]
            simp only [parseUintCore, hd]
            rw [if_neg h1, if_neg h2]
          rw [e1] at h
          rw [e2, ih ys _ m h]

theorem parseUintCore_itoa :
    ∀ v a, a * 10 ^ (itoa v).length + v < 2 ^ 32 →
      parseUintCore 10 (itoa v) a = .ok (a * 10 ^ (itoa v).length + v) := by
  intro v
  induction v using Nat.strong_induction_on with
  | _ v ih =>
    intro a ha
    by_cases h10 : v < 10
    · rw [itoa_lt10 v h10] at ha ⊢
      simp only [List.length_singleton, pow_one] at ha ⊢
      have hd := digitVal_ofNat v h10
      simp only [parseUintCore, show ('0'.toNat + v) = 48 + v from rfl, hd]
      rw [if_neg (show ¬ v ≥ 10 by omega), if_neg (show ¬ a * 10 + v ≥ 2 ^ 32 by omega)]
    · have hdiv : v / 10 < v := Nat.div_lt_self (by omega) (by omega)
      rw [itoa_ge10 v (by omega)] at ha ⊢
      rw [List.length_append, List.length_singleton] at ha ⊢
      have hm10 : a * 10 ^ ((itoa (v / 10)).length + 1) =
          a * 10 ^ (itoa (v / 10)).length * 10 := by
        rw [pow_succ, mul_assoc]
      have hmod := Nat.div_add_mod v 10
      have hbound : a * 10 ^ (itoa (v / 10)).length + v / 10 < 2 ^ 32 := by
        rw [hm10] at ha
        omega
      have h1 := ih (v / 10) hdiv a hbound
      rw [parseUintCore_append 10 _ _ _ _ h1]
      have hd := digitVal_ofNat (v % 10) (by omega)
      have hno : ¬ (a * 10 ^ (itoa (v / 10)).length + v / 10) * 10 + v % 10 ≥ 2 ^ 32 := by
        rw [hm10] at ha
        omega
      simp only [parseUintCore, show ('0'.toNat + v % 10) = 48 + v % 10 from rfl, hd]
      rw [if_neg (show ¬ v % 10 ≥ 10 by omega), if_neg hno]
      congr 1
      rw [hm10]
      omega

theorem parseUintGo_itoa (v : Nat) (h : v < 2 ^ 32) : parseUintGo (itoa v) 10 = .ok v := by
  unfold parseUintGo
  rw [if_neg (itoa_ne_nil v)]
  have := parseUintCore_itoa v 0 (by simpa using h)
  simpa using this

theorem digit_not_space {c : Char} (h1 : '0' ≤ c) (h2 : c ≤ '9') :
    isGoSpace c = false := by
  unfold isGoSpace
  simp only [Bool.or_eq_false_iff, beq_eq_false_iff_ne, ne_eq]
  and_intros
  all_goals rintro rfl
  all_goals first | exact absurd h1 (by decide) | exact absurd h2 (by decide)

theorem dropWhile_false {p : Char → Bool} {s : Str} (h : ∀ c ∈ s, p c = false) :
    s.dropWhile p = s := by
  cases s with
  | nil => rfl
  | cons c cs => simp [List.dropWhile_cons, h c (by simp)]

theorem trimSpace_eq_self {s : Str} (h : ∀ c ∈ s, isGoSpace c = false) :
    trimSpace s = s := by
  unfold trimSpace
  rw [dropWhile_false h, dropWhile_false (fun c hc => h c (List.mem_reverse.mp hc)),
    List.reverse_reverse]

theorem splitOnChar_no_sep {s : Str} {sep : Char} (h : sep ∉ s) :
    splitOnChar s sep = [s] := by
  induction s with
  | nil => rfl
  | cons c cs ih =>
    have h1 : c ≠ sep := by rintro rfl; exact h (by simp)
    have h2 : sep ∉ cs := fun hc => h (by simp [hc])
    simp [splitOnChar, ih h2, h1]

theorem dot_not_mem_itoa (v : Nat) : '.' ∉ itoa v := by
  intro h
  exact absurd (itoa_chars v '.' h).1 (by decide)

theorem itoa_no_space (v : Nat) : ∀ c ∈ itoa v, isGoSpace c = false := fun c hc =>
  digit_not_space (itoa_chars v c hc).1 (itoa_chars v c hc).2

theorem foldl_digits_ge (b : Nat) (hb : 1 ≤ b) :
    ∀ (s : Str) (x : Nat), x ≤ s.foldl (fun a c => a * b + (digitVal c).getD 0) x := by
  intro s
  induction s with
  | nil => intro x; simp
  | cons c cs ih =>
    intro x
    simp only [List.foldl_cons]
    refine le_trans ?_ (ih (x * b + (digitVal c).getD 0))
    have : x ≤ x * b := Nat.le_mul_of_pos_right x (by omega)
    omega

theorem parseUintCore_ok_iff (b : Nat) (hb : 1 ≤ b) :
    ∀ (s : Str) (a : Nat), a < 2 ^ 32 →
      (isOkE (parseUintCore b s a) = true ↔
        ((∀ c ∈ s, ∃ d, digitVal c = some d ∧ d < b) ∧
          s.foldl (fun x c => x * b + (digitVal c).getD 0) a < 2 ^ 32)) := by
  intro s
  induction s with
  | nil => intro a ha; simpa [parseUintCore, isOkE] using ha
  | cons c cs ih =>
    intro a ha
    cases hd : digitVal c with
    | none =>
      have e : parseUintCore b (c :: cs) a = .error .numSyntax := by
        simp [parseUintCore, hd]
      rw [e]
      constructor
      · intro h; simp [isOkE] at h
      · rintro ⟨hall, -⟩
        rcases hall c (by simp) with ⟨d, hd', -⟩
        rw [hd] at hd'
        cases hd'
    | some d =>
      by_cases h1 : d ≥ b
      · have e : parseUintCore b (c :: cs) a = .error .numSyntax := by
          simp only [parseUintCore, hd]
          rw [if_pos h1]
        rw [e]
        constructor
        · intro h; simp [isOkE] at h
        · rintro ⟨hall, -⟩
          rcases hall c (by simp) with ⟨d', hd', hlt⟩
          rw [hd] at hd'
          injection hd' with hdd
          omega
      · by_cases h2 : a * b + d ≥ 2 ^ 32
        · have e : parseUintCore b (c :: cs) a = .error .numRange := by
            simp only [parseUintCore, hd]
            rw [if_neg h1, if_pos h2]
          rw [e]
          constructor
          · intro h; simp [isOkE] at h
          · rintro ⟨-, hval⟩
            have hge := foldl_digits_ge b hb cs (a * b + d)
            simp only [List.foldl_cons, hd, Option.getD_some] at hval
            omega
        · have e1 : parseUintCore b (c :: cs) a = parseUintCore b cs (a * b + d) := by
            simp only [parseUintCore, hd]
            rw [if_neg h1, if_neg h2]
          rw [e1, ih (a * b + d) (by omega)]
          simp only [List.foldl_cons, hd, Option.getD_some]
          constructor
          · rintro ⟨h3, h4⟩
            refine ⟨fun x hx => ?_, h4⟩
            rcases List.mem_cons.mp hx with h | h
            · subst h; exact ⟨d, hd, by omega⟩
            · exact h3 x h
          · rintro ⟨h3, h4⟩
            exact ⟨fun x hx => h3 x (by simp [hx]), h4⟩

theorem parseUintGo_ok_iff (b : Nat) (hb : 1 ≤ b) (s : Str) :
    isOkE (parseUintGo s b) = true ↔
      (s ≠ [] ∧ (∀ c ∈ s, ∃ d, digitVal c = some d ∧ d < b) ∧
        digitsVal b s < 2 ^ 32) := by
  unfold parseUintGo
  by_cases h : s = []
  · rw [if_pos h]
    simp [isOkE, h]
  · rw [if_neg h]
    rw [parseUintCore_ok_iff b hb s 0 (by norm_num)]
    unfold digitsVal
    simp [h]

theorem parseUintCore_error_mem (b : Nat) :
    ∀ (s : Str) (a : Nat) (e : IPErr), parseUintCore b s a = .error e →
      e = .numSyntax ∨ e = .numRange := by
  intro s
  induction s with
  | nil => intro a e h; simp [parseUintCore] at h
  | cons c cs ih =>
    intro a e h
    cases hd : digitVal c with
    | none =>
      have e1 : parseUintCore b (c :: cs) a = .error .numSyntax := by
        simp [parseUintCore, hd]
      rw [e1] at h
      injection h with h2
      exact Or.inl h2.symm
    | some d =>
      by_cases h1 : d ≥ b
      · have e1 : parseUintCore b (c :: cs) a = .error .numSyntax := by
          simp only [parseUintCore, hd]
          rw [if_pos h1]
        rw [e1] at h
        injection h with h2
        exact Or.inl h2.symm
      · by_cases h2 : a * b + d ≥ 2 ^ 32
        · have e1 : parseUintCore b (c :: cs) a = .error .numRange := by
            simp only [parseUintCore, hd]
            rw [if_neg h1, if_pos h2]
          rw [e1] at h
          injection h with h2
          exact Or.inr h2.symm
        · have e1 : parseUintCore b (c :: cs) a = parseUintCore b cs (a * b + d) := by
            simp only [parseUintCore, hd]
            rw [if_neg h1, if_neg h2]
          rw [e1] at h
          exact ih _ e h

theorem parseUintGo_error_mem (s : Str) (b : Nat) (e : IPErr)
    (h : parseUintGo s b = .error e) : e = .numSyntax ∨ e = .numRange := by
  unfold parseUintGo at h
  by_cases hs : s = []
  · rw [if_pos hs] at h
    injection h with h2
    exact Or.inl h2.symm
  · rw [if_neg hs] at h
    exact parseUintCore_error_mem b s 0 e h

theorem parseUintSeg_error_mem (s : Str) (e : IPErr)
    (h : parseUintSeg s = .error e) : e = .numSyntax ∨ e = .numRange := by
  simp only [parseUintSeg] at h
  by_cases h16 : getBase s = 16
  · rw [if_pos h16] at h; exact parseUintGo_error_mem _ _ _ h
  · rw [if_neg h16] at h
    by_cases h8 : getBase s = 8
    · rw [if_pos h8] at h; exact parseUintGo_error_mem _ _ _ h
    · rw [if_neg h8] at h; exact parseUintGo_error_mem _ _ _ h

theorem parseNumber_error_mem (s : Str) (k : Nat) (e : IPErr)
    (h : parseNumber s k = .error e) :
    e = .numSyntax ∨ e = .numRange ∨ e = .numTooBig := by
  cases hu : parseUintSeg s with
  | error e' =>
    simp only [parseNumber, hu] at h
    injection h with h2
    cases h2
    rcases parseUintSeg_error_mem s _ hu with h3 | h3
    · exact Or.inl h3
    · exact Or.inr (Or.inl h3)
  | ok v =>
    simp only [parseNumber, hu] at h
    by_cases hv : v > maxNumGo k
    · rw [if_pos hv] at h
      injection h with h2
      exact Or.inr (Or.inr h2.symm)
    · rw [if_neg hv] at h
      exact absurd h (by simp)

theorem parseFirstSegs_error_mem :
    ∀ (l : List Str) (e : IPErr), parseFirstSegs l = .error e →
      e = .numSyntax ∨ e = .numRange ∨ e = .numTooBig := by
  intro l
  induction l with
  | nil => intro e h; simp [parseFirstSegs] at h
  | cons seg rest ih =>
    intro e h
    cases hp : parseNumber seg 1 with
    | error e' =>
      simp only [parseFirstSegs, hp] at h
      injection h with h2
      exact h2 ▸ parseNumber_error_mem seg 1 e' hp
    | ok num =>
      simp only [parseFirstSegs, hp] at h
      cases hr : parseFirstSegs rest with
      | error e' =>
        rw [hr] at h
        injection h with h2
        exact h2 ▸ ih e' hr
      | ok t =>
        rw [hr] at h
        exact absurd h (by simp)

theorem parseFirstSegs_ok_iff :
    ∀ (l : List Str), isOkE (parseFirstSegs l) = true ↔
      ∀ seg ∈ l, isOkE (parseNumber seg 1) = true := by
  intro l
  induction l with
  | nil => simp [parseFirstSegs, isOkE]
  | cons seg rest ih =>
    cases hp : parseNumber seg 1 with
    | error e' =>
      simp only [parseFirstSegs, hp]
      constructor
      · intro h; simp [isOkE] at h
      · intro h
        have h2 := h seg (by simp)
        rw [hp] at h2
        simp [isOkE] at h2
    | ok num =>
      simp only [parseFirstSegs, hp]
      cases hr : parseFirstSegs rest with
      | error e' =>
        constructor
        · intro h; simp [isOkE] at h
        · intro h
          have h2 := ih.mpr (fun s hs => h s (by simp [hs]))
          rw [hr] at h2
          simp [isOkE] at h2
      | ok t =>
        constructor
        · intro _ s hs
          rcases List.mem_cons.mp hs with h | h
          · subst h; simp [hp, isOkE]
          · exact ih.mp (by simp [hr, isOkE]) s h
        · intro _
          simp [isOkE]

theorem getBase_cases (s : Str) : getBase s = 16 ∨ getBase s = 8 ∨ getBase s = 10 := by
  unfold getBase
  split
  · exact Or.inl rfl
  · split
    · exact Or.inr (Or.inl rfl)
    · exact Or.inr (Or.inr rfl)

theorem NormalizeIPv4_itoa_large (v : Nat) (h1 : 255 ^ 4 < v) (h2 : v < 2 ^ 32) :
    NormalizeIPv4 (itoa v) = .error .numTooBig := by
  have hpos : 0 < v := lt_of_le_of_lt (Nat.zero_le _) h1
  have htrim : trimSpace (itoa v) = itoa v := trimSpace_eq_self (itoa_no_space v)
  have hsplit : splitOnChar (itoa v) '.' = [itoa v] :=
    splitOnChar_no_sep (dot_not_mem_itoa v)
  have hseg : parseUintSeg (itoa v) = .ok v := by
    simp only [parseUintSeg, getBase_itoa v hpos]
    norm_num
    exact parseUintGo_itoa v h2
  have hnum : parseNumber (itoa v) 4 = .error .numTooBig := by
    simp only [parseNumber, hseg]
    rw [if_pos (by rw [maxNumGo_eq_pow 4 (by omega)]; omega)]
  simp only [NormalizeIPv4, htrim, hsplit, if_neg (itoa_ne_nil v)]
  norm_num [parseFirstSegs, hnum]

/-- C4: the width check of `parseNumber` accepts a parsed value exactly when
it does not exceed `0xFF` multiplied by itself `blocksCount` times, i.e.
`0xFF^k`, not `0x100^k - 1`; the last segment of an `N`-segment input is
checked with `k = 5 - N`; consequently a single-segment decimal input is
rejected for every value in `(0xFF^4, 2^32)` even though it fits in 32
bits. -/
theorem c4_theorem :
    (∀ k, 1 ≤ k → maxNumGo k = 255 ^ k) ∧
    (∀ s k v, 1 ≤ k → parseUintSeg s = .ok v →
      (parseNumber s k = .ok v ↔ v ≤ 255 ^ k) ∧
      (255 ^ k < v → parseNumber s k = .error .numTooBig)) ∧
    (∀ v, 255 ^ 4 < v → v < 2 ^ 32 → NormalizeIPv4 (itoa v) = .error .numTooBig) := by
  refine ⟨maxNumGo_eq_pow, ?_, NormalizeIPv4_itoa_large⟩
  intro s k v hk hv
  have hmax := maxNumGo_eq_pow k hk
  constructor
  · simp only [parseNumber, hv, hmax]
    by_cases hle : v ≤ 255 ^ k
    · rw [if_neg (by omega)]
      simp [hle]
    · rw [if_pos (by omega)]
      simp [hle]
  · intro hgt
    simp only [parseNumber, hv, hmax]
    rw [if_pos (by omega)]

/-- C4 (witness): the width rule applied at concrete points. -/
theorem c4_witness :
    maxNumGo 2 = 255 ^ 2 ∧ parseNumber (strOf "8225") 2 = .ok 8225 ∧
    NormalizeIPv4 (itoa 4228250626) = .error .numTooBig :=
  ⟨c4_theorem.1 2 (by decide),
   ((c4_theorem.2.1 (strOf "8225") 2 8225 (by decide) (by decide)).1).mpr (by decide),
   c4_theorem.2.2 4228250626 (by decide) (by decide)⟩

theorem NormalizeIPv4_cases (s : Str) :
    (trimSpace s = [] ∧ NormalizeIPv4 s = .error .emptyValue) ∨
    (trimSpace s ≠ [] ∧ 4 < (splitOnChar (trimSpace s) '.').length ∧
      NormalizeIPv4 s = .error .invalidIPv4) ∨
    (trimSpace s ≠ [] ∧ (splitOnChar (trimSpace s) '.').length ≤ 4 ∧
      ((∃ e, parseFirstSegs (splitOnChar (trimSpace s) '.').dropLast = .error e ∧
         NormalizeIPv4 s = .error e) ∨
       (∃ row, parseFirstSegs (splitOnChar (trimSpace s) '.').dropLast = .ok row ∧
         ((∃ e, parseNumber ((splitOnChar (trimSpace s) '.').getLastD [])
             (5 - (splitOnChar (trimSpace s) '.').length) = .error e ∧
           NormalizeIPv4 s = .error e) ∨
          (∃ num, parseNumber ((splitOnChar (trimSpace s) '.').getLastD [])
             (5 - (splitOnChar (trimSpace s) '.').length) = .ok num ∧
           NormalizeIPv4 s = .ok (row ++
             uint32ToIPv4 num ((splitOnChar (trimSpace s) '.').length - 1))))))) := by
  by_cases h1 : trimSpace s = []
  · exact Or.inl ⟨h1, by simp [NormalizeIPv4, h1]⟩
  · right
    by_cases h2 : (splitOnChar (trimSpace s) '.').length > 4
    · exact Or.inl ⟨h1, h2, by simp [NormalizeIPv4, if_neg h1, h2]⟩
    · right
      refine ⟨h1, by omega, ?_⟩
      cases hf : parseFirstSegs (splitOnChar (trimSpace s) '.').dropLast with
      | error e =>
        refine Or.inl ⟨e, rfl, ?_⟩
        simp only [NormalizeIPv4, if_neg h1, if_neg h2, hf]
      | ok row =>
        right
        refine ⟨row, rfl, ?_⟩
        cases hp : parseNumber ((splitOnChar (trimSpace s) '.').getLastD [])
            (5 - (splitOnChar (trimSpace s) '.').length) with
        | error e =>
          refine Or.inl ⟨e, rfl, ?_⟩
          simp only [NormalizeIPv4, if_neg h1, if_neg h2, hf, hp]
        | ok num =>
          refine Or.inr ⟨num, rfl, ?_⟩
          simp only [NormalizeIPv4, if_neg h1, if_neg h2, hf, hp]

/-- C7 (counterexample): a width violation does not fail with the
`ErrInvalidIPv4` sentinel: `256.1.1.1` fails with the distinct
"num too big for ip" error. -/
theorem c7_counterexample :
    NormalizeIPv4 (strOf "256.1.1.1") = .error .numTooBig ∧
    IPErr.numTooBig ≠ IPErr.invalidIPv4 := by
  decide

/-- C7 (amended): NormalizeIPv4 fails exactly when the trimmed input is empty
(EmptyValue), has more than four segments, or some segment fails its
width/digit check; the `ErrInvalidIPv4` sentinel itself is returned exactly
in the too-many-segments case; and a segment's `strconv` stage succeeds
exactly when its digit body is non-empty, every digit is valid for the
detected base, and the value fits in 32 bits. -/
theorem c7_theorem :
    (∀ s, NormalizeIPv4 s = .error .invalidIPv4 ↔
      trimSpace s ≠ [] ∧ 4 < (splitOnChar (trimSpace s) '.').length) ∧
    (∀ s, NormalizeIPv4 s = .error .emptyValue ↔ trimSpace s = []) ∧
    (∀ s, isOkE (NormalizeIPv4 s) = true ↔
      (trimSpace s ≠ [] ∧ (splitOnChar (trimSpace s) '.').length ≤ 4 ∧
       (∀ seg ∈ (splitOnChar (trimSpace s) '.').dropLast,
         isOkE (parseNumber seg 1) = true) ∧
       isOkE (parseNumber ((splitOnChar (trimSpace s) '.').getLastD [])
         (5 - (splitOnChar (trimSpace s) '.').length)) = true)) ∧
    (∀ seg, isOkE (parseUintSeg seg) = true ↔
      (segBody seg ≠ [] ∧
       (∀ c ∈ segBody seg, ∃ d, digitVal c = some d ∧ d < getBase seg) ∧
       digitsVal (getBase seg) (segBody seg) < 2 ^ 32)) := by
  refine ⟨?_, ?_, ?_, ?_⟩
  · intro s
    rcases NormalizeIPv4_cases s with ⟨h1, h2⟩ | ⟨h1, h2, h3⟩ |
      ⟨h1, h2, ⟨e, he, h3⟩ | ⟨row, hrow, ⟨e, he, h3⟩ | ⟨num, hnum, h3⟩⟩⟩
    · rw [h2]; simp [h1]
    · rw [h3]; simp [h1, h2]
    · rw [h3]
      constructor
      · intro hh
        injection hh with hh2
        rcases parseFirstSegs_error_mem _ _ he with h | h | h <;> simp [h] at hh2
      · rintro ⟨-, hlen⟩; omega
    · rw [h3]
      constructor
      · intro hh
        injection hh with hh2
        rcases parseNumber_error_mem _ _ _ he with h | h | h <;> simp [h] at hh2
      · rintro ⟨-, hlen⟩; omega
    · rw [h3]
      constructor
      · intro hh; exact absurd hh (by simp)
      · rintro ⟨-, hlen⟩; omega
  · intro s
    rcases NormalizeIPv4_cases s with ⟨h1, h2⟩ | ⟨h1, h2, h3⟩ |
      ⟨h1, h2, ⟨e, he, h3⟩ | ⟨row, hrow, ⟨e, he, h3⟩ | ⟨num, hnum, h3⟩⟩⟩
    · rw [h2]; simp [h1]
    · rw [h3]; simp [h1]
    · rw [h3]
      constructor
      · intro hh
        injection hh with hh2
        rcases parseFirstSegs_error_mem _ _ he with h | h | h <;> simp [h] at hh2
      · intro hh; exact absurd hh h1
    · rw [h3]
      constructor
      · intro hh
        injection hh with hh2
        rcases parseNumber_error_mem _ _ _ he with h | h | h <;> simp [h] at hh2
      · intro hh; exact absurd hh h1
    · rw [h3]
      constructor
      · intro hh; exact absurd hh (by simp)
      · intro hh; exact absurd hh h1
  · intro s
    rcases NormalizeIPv4_cases s with ⟨h1, h2⟩ | ⟨h1, h2, h3⟩ |
      ⟨h1, h2, ⟨e, he, h3⟩ | ⟨row, hrow, ⟨e, he, h3⟩ | ⟨num, hnum, h3⟩⟩⟩
    · rw [h2]
      simp only [isOkE]
      constructor
      · intro hh; simp at hh
      · rintro ⟨hh, -⟩; exact absurd h1 hh
    · rw [h3]
      simp only [isOkE]
      constructor
      · intro hh; simp at hh
      · rintro ⟨-, hlen, -⟩; omega
    · rw [h3]
      simp only [isOkE]
      constructor
      · intro hh; simp at hh
      · rintro ⟨-, -, hall, -⟩
        have := (parseFirstSegs_ok_iff _).mpr hall
        rw [he] at this
        simp [isOkE] at this
    · rw [h3]
      simp only [isOkE]
      constructor
      · intro hh; simp at hh
      · rintro ⟨-, -, -, hlast⟩
        rw [he] at hlast
        simp [isOkE] at hlast
    · rw [h3]
      simp only [isOkE]
      constructor
      · intro _
        refine ⟨h1, by omega, ?_, ?_⟩
        · exact (parseFirstSegs_ok_iff _).mp (by simp [hrow, isOkE])
        · simp only [hnum, isOkE]
      · intro _
        first
        | rfl
        | trivial
  · intro seg
    have h16 : (1 : Nat) ≤ 16 := by omega
    have h8 : (1 : Nat) ≤ 8 := by omega
    have h10 : (1 : Nat) ≤ 10 := by omega
    rcases getBase_cases seg with hb | hb | hb
    · have e1 : parseUintSeg seg = parseUintGo (seg.drop 2) 16 := by
        simp [parseUintSeg, hb]
      have e2 : segBody seg = seg.drop 2 := by
        simp [segBody, hb]
      rw [e1, e2, hb]
      exact parseUintGo_ok_iff 16 h16 (seg.drop 2)
    · have e1 : parseUintSeg seg = parseUintGo (seg.drop 1) 8 := by
        simp [parseUintSeg, hb]
      have e2 : segBody seg = seg.drop 1 := by
        simp [segBody, hb]
      rw [e1, e2, hb]
      exact parseUintGo_ok_iff 8 h8 (seg.drop 1)
    · have e1 : parseUintSeg seg = parseUintGo seg 10 := by
        simp [parseUintSeg, hb]
      have e2 : segBody seg = seg := by
        simp [segBody, hb]
      rw [e1, e2, hb]
      exact parseUintGo_ok_iff 10 h10 seg

/-- C7 (witness): the too-many-segments characterization applied to
`1.2.3.4.5`. -/
theorem c7_witness :
    NormalizeIPv4 (strOf "1.2.3.4.5") = .error .invalidIPv4 :=
  (c7_theorem.1 (strOf "1.2.3.4.5")).mpr (by decide)

/-! ## Character and membership lemmas -/

theorem charToNat_ofNat {n : Nat} (h : n < 55296) : (Char.ofNat n).toNat = n := by
  simp [Char.ofNat, Char.ofNatAux, Nat.isValidChar, h, Char.toNat, UInt32.toNat,
    BitVec.toNat_ofNatLt]

theorem toLowerChar_toNat (c : Char) :
    toLowerChar c = c ∨
    (65 ≤ c.toNat ∧ c.toNat ≤ 90 ∧ (toLowerChar c).toNat = c.toNat + 32) := by
  unfold toLowerChar
  by_cases h : 'A' ≤ c ∧ c ≤ 'Z'
  · right
    have h1 : 65 ≤ c.toNat := h.1
    have h2 : c.toNat ≤ 90 := h.2
    rw [if_pos h]
    exact ⟨h1, h2, charToNat_ofNat (by omega)⟩
  · left
    rw [if_neg h]

theorem toLowerChar_preimage {c x : Char} (hx : ¬ (97 ≤ x.toNat ∧ x.toNat ≤ 122))
    (h : toLowerChar c = x) : c = x := by
  rcases toLowerChar_toNat c with h1 | ⟨h1, h2, h3⟩
  · rwa [h1] at h
  · exfalso
    apply hx
    have h4 := congrArg Char.toNat h
    rw [h3] at h4
    omega

theorem toLowerChar_ascii {c : Char} (h : c.toNat < 128) :
    (toLowerChar c).toNat < 128 := by
  rcases toLowerChar_toNat c with h1 | ⟨h1, h2, h3⟩
  · rwa [h1]
  · omega

theorem toLowerStr_no {s : Str} {x : Char} (hx : ¬ (97 ≤ x.toNat ∧ x.toNat ≤ 122))
    (h : x ∉ s) : x ∉ toLowerStr s := by
  intro hc
  rcases List.mem_map.mp hc with ⟨c, hc1, hc2⟩
  exact h ((toLowerChar_preimage hx hc2) ▸ hc1)

theorem toLowerStr_ascii {s : Str} (h : ∀ c ∈ s, c.toNat < 128) :
    ∀ c ∈ toLowerStr s, c.toNat < 128 := by
  intro c hc
  rcases List.mem_map.mp hc with ⟨c0, hc1, hc2⟩
  exact hc2 ▸ toLowerChar_ascii (h c0 hc1)

theorem splitOnChar_ne_nil (s : Str) (sep : Char) : splitOnChar s sep ≠ [] := by
  cases s with
  | nil => simp [splitOnChar]
  | cons c cs =>
    simp only [splitOnChar]
    cases h : splitOnChar cs sep with
    | nil => simp
    | cons r rs =>
      by_cases hc : c == sep <;> simp [hc]

theorem mem_splitOnChar {s : Str} {sep : Char} :
    ∀ part ∈ splitOnChar s sep, ∀ c ∈ part, c ∈ s := by
  induction s with
  | nil =>
    intro part hp c hc
    simp [splitOnChar] at hp
    subst hp
    simp at hc
  | cons c0 cs ih =>
    intro part hp c hc
    rcases h : splitOnChar cs sep with _ | ⟨r, rs⟩
    · exact absurd h (splitOnChar_ne_nil cs sep)
    · simp only [splitOnChar, h] at hp
      by_cases hc0 : c0 == sep
      · rw [if_pos hc0] at hp
        rcases List.mem_cons.mp hp with h1 | h1
        · subst h1; simp at hc
        · exact List.mem_cons_of_mem c0 (ih part (h ▸ h1) c hc)
      · rw [if_neg hc0] at hp
        rcases List.mem_cons.mp hp with h1 | h1
        · subst h1
          rcases List.mem_cons.mp hc with h2 | h2
          · exact h2 ▸ List.mem_cons_self c0 cs
          · exact List.mem_cons_of_mem c0 (ih r (h ▸ List.mem_cons_self r rs) c h2)
        · exact List.mem_cons_of_mem c0 (ih part (h ▸ List.mem_cons_of_mem r h1) c hc)

theorem splitOnChar_parts_no_sep {s : Str} {sep : Char} :
    ∀ part ∈ splitOnChar s sep, sep ∉ part := by
  induction s with
  | nil =>
    intro part hp
    simp [splitOnChar] at hp
    subst hp
    simp
  | cons c0 cs ih =>
    intro part hp
    rcases h : splitOnChar cs sep with _ | ⟨r, rs⟩
    · exact absurd h (splitOnChar_ne_nil cs sep)
    · simp only [splitOnChar, h] at hp
      by_cases hc0 : c0 == sep
      · rw [if_pos hc0] at hp
        rcases List.mem_cons.mp hp with h1 | h1
        · subst h1; simp
        · exact ih part (h ▸ h1)
      · rw [if_neg hc0] at hp
        rcases List.mem_cons.mp hp with h1 | h1
        · subst h1
          intro hcc
          rcases List.mem_cons.mp hcc with h2 | h2
          · exact absurd h2.symm (by simpa using hc0)
          · exact ih r (h ▸ List.mem_cons_self r rs) h2
        · exact ih part (h ▸ List.mem_cons_of_mem r h1)

theorem cutChar_fst_subset {s : Str} {sep : Char} : ∀ c ∈ (cutChar s sep).1, c ∈ s := by
  induction s with
  | nil => intro c hc; simp [cutChar] at hc
  | cons c0 cs ih =>
    intro c hc
    by_cases h : c0 == sep
    · simp [cutChar, h] at hc
    · rw [show cutChar (c0 :: cs) sep =
          (c0 :: (cutChar cs sep).1, (cutChar cs sep).2.1, (cutChar cs sep).2.2) by
            simp [cutChar, h]] at hc
      rcases List.mem_cons.mp hc with h1 | h1
      · exact h1 ▸ List.mem_cons_self c0 cs
      · exact List.mem_cons_of_mem c0 (ih c h1)

theorem cutChar_snd_subset {s : Str} {sep : Char} : ∀ c ∈ (cutChar s sep).2.1, c ∈ s := by
  induction s with
  | nil => intro c hc; simp [cutChar] at hc
  | cons c0 cs ih =>
    intro c hc
    by_cases h : c0 == sep
    · simp only [cutChar, if_pos h] at hc
      exact List.mem_cons_of_mem c0 hc
    · rw [show cutChar (c0 :: cs) sep =
          (c0 :: (cutChar cs sep).1, (cutChar cs sep).2.1, (cutChar cs sep).2.2) by
            simp [cutChar, h]] at hc
      exact List.mem_cons_of_mem c0 (ih c hc)

theorem cutChar_fst_no_sep {s : Str} {sep : Char} : sep ∉ (cutChar s sep).1 := by
  induction s with
  | nil => simp [cutChar]
  | cons c0 cs ih =>
    by_cases h : c0 == sep
    · simp [cutChar, h]
    · rw [show cutChar (c0 :: cs) sep =
          (c0 :: (cutChar cs sep).1, (cutChar cs sep).2.1, (cutChar cs sep).2.2) by
            simp [cutChar, h]]
      intro hc
      rcases List.mem_cons.mp hc with h1 | h1
      · exact absurd h1.symm (by simpa using h)
      · exact ih h1

theorem mem_joinWith {sep : Str} :
    ∀ (parts : List Str), ∀ c ∈ joinWith sep parts, c ∈ sep ∨ ∃ p ∈ parts, c ∈ p := by
  intro parts
  induction parts with
  | nil => intro c hc; simp [joinWith] at hc
  | cons x xs ih =>
    intro c hc
    cases xs with
    | nil =>
      simp only [joinWith] at hc
      exact Or.inr ⟨x, by simp, hc⟩
    | cons y ys =>
      simp only [joinWith, List.append_assoc, List.mem_append] at hc
      rcases hc with h1 | h1 | h1
      · exact Or.inr ⟨x, by simp, h1⟩
      · exact Or.inl h1
      · rcases ih c h1 with h3 | ⟨p, hp1, hp2⟩
        · exact Or.inl h3
        · exact Or.inr ⟨p, by simp [hp1], hp2⟩

theorem collapseAux_mem {sym : Char} {t : Bool} :
    ∀ (s : Str) (marked : Bool) (c : Char), c ∈ collapseAux sym t s marked →
      c ∈ s ∨ c = sym := by
  intro s
  induction s with
  | nil =>
    intro marked c hc
    simp only [collapseAux] at hc
    by_cases h : marked ∧ ¬ t
    · rw [if_pos h] at hc
      simp at hc
      exact Or.inr hc
    · rw [if_neg h] at hc
      simp at hc
  | cons r rest ih =>
    intro marked c hc
    simp only [collapseAux] at hc
    by_cases h1 : r = sym
    · rw [if_pos h1] at hc
      rcases ih true c hc with h | h
      · exact Or.inl (List.mem_cons_of_mem r h)
      · exact Or.inr h
    · rw [if_neg h1] at hc
      by_cases h2 : marked
      · rw [if_pos h2] at hc
        rcases List.mem_cons.mp hc with h3 | h3
        · exact Or.inr h3
        · rcases List.mem_cons.mp h3 with h4 | h4
          · exact Or.inl (h4 ▸ List.mem_cons_self r rest)
          · rcases ih false c h4 with h | h
            · exact Or.inl (List.mem_cons_of_mem r h)
            · exact Or.inr h
      · rw [if_neg h2] at hc
        rcases List.mem_cons.mp hc with h3 | h3
        · exact Or.inl (h3 ▸ List.mem_cons_self r rest)
        · rcases ih false c h3 with h | h
          · exact Or.inl (List.mem_cons_of_mem r h)
          · exact Or.inr h

theorem collapseGo_mem {s : Str} {sym : Char} {t : Bool} :
    ∀ c ∈ collapseGo s sym t, c ∈ s ∨ c = sym := fun c hc =>
  collapseAux_mem s false c hc

theorem trimLeading_subset {s p : Str} : ∀ c ∈ trimLeading s p, c ∈ s := by
  unfold trimLeading
  split
  · exact fun c hc => List.drop_subset _ s hc
  · exact fun c hc => hc

theorem trimTrailing_subset {s p : Str} : ∀ c ∈ trimTrailing s p, c ∈ s := by
  unfold trimTrailing
  split
  · exact fun c hc => List.take_subset _ s hc
  · exact fun c hc => hc

theorem trimLeftChar_subset {s : Str} {x : Char} : ∀ c ∈ trimLeftChar s x, c ∈ s :=
  fun c hc => (List.dropWhile_sublist _).subset hc

/-! ### expandChar and removeAll00 -/

theorem expandChar_cons (c : Char) (t : Str) (a : Char) (rep : Str) :
    expandChar (c :: t) a rep = (if c = a then rep else [c]) ++ expandChar t a rep := by
  simp [expandChar]

theorem expandChar_noop {s : Str} {a : Char} {rep : Str} (h : a ∉ s) :
    expandChar s a rep = s := by
  induction s with
  | nil => rfl
  | cons c t ih =>
    have hc : c ≠ a := fun e => h (e ▸ List.mem_cons_self c t)
    rw [expandChar_cons, if_neg hc, ih (fun e => h (List.mem_cons_of_mem c e))]
    rfl

theorem removeAll00_cons_ne {c : Char} (hc : c ≠ '%') :
    ∀ s : Str, removeAll00 (c :: s) = c :: removeAll00 s := by
  intro s
  match s with
  | [] => rfl
  | [d] => rfl
  | d :: e :: r => simp [removeAll00, hc]

theorem removeAll00_block (r : Str) :
    removeAll00 ('%' :: '2' :: 'B' :: r) = '%' :: '2' :: 'B' :: removeAll00 r := by
  have h : ¬ ('%' = '%' ∧ '2' = '0' ∧ 'B' = '0') := by decide
  rw [show removeAll00 ('%' :: '2' :: 'B' :: r) = '%' :: removeAll00 ('2' :: 'B' :: r)
      from by simp [removeAll00, h],
    removeAll00_cons_ne (by decide) ('B' :: r), removeAll00_cons_ne (by decide) r]

theorem removeAll00_expand {s : Str} (h : '%' ∉ s) :
    removeAll00 (expandChar s '+' (strOf "%2B")) = expandChar s '+' (strOf "%2B") := by
  induction s with
  | nil => rfl
  | cons c t ih =>
    have hp : '%' ∉ t := fun e => h (List.mem_cons_of_mem c e)
    have hc : c ≠ '%' := fun e => h (e ▸ List.mem_cons_self c t)
    rw [expandChar_cons]
    by_cases hplus : c = '+'
    · rw [if_pos hplus]
      show removeAll00 ('%' :: '2' :: 'B' :: expandChar t '+' (strOf "%2B")) =
        '%' :: '2' :: 'B' :: expandChar t '+' (strOf "%2B")
      rw [removeAll00_block, ih hp]
    · rw [if_neg hplus]
      show removeAll00 (c :: expandChar t '+' (strOf "%2B")) =
        c :: expandChar t '+' (strOf "%2B")
      rw [removeAll00_cons_ne hc, ih hp]

/-! ### unescape on escape-free input -/

theorem unescape_cons_plain {mode : Mode} (h1 : mode ≠ Mode.host) (h2 : mode ≠ Mode.zone)
    {c : Char} (hc : c ≠ '%') (hp : c ≠ '+') (r : Str) :
    unescape mode (c :: r) = (unescape mode r).map (c :: ·) := by
  conv_lhs => unfold unescape
  rw [if_neg hc, if_neg hp, if_neg (fun hcon => (hcon.1.elim h1 h2))]

theorem unescape_cons_plus (mode : Mode) (r : Str) :
    unescape mode ('+' :: r) =
      (unescape mode r).map ((if mode = Mode.queryComponent then ' ' else '+') :: ·) := by
  conv_lhs => unfold unescape
  rw [if_neg (show ¬ ('+' = '%') by decide), if_pos rfl]

theorem unescape_id {mode : Mode} (h1 : mode ≠ Mode.host) (h2 : mode ≠ Mode.zone)
    (h3 : mode ≠ Mode.queryComponent) :
    ∀ {s : Str}, '%' ∉ s → unescape mode s = .ok s := by
  intro s
  induction s with
  | nil => intro _; rfl
  | cons c rest ih =>
    intro hmem
    have hc : c ≠ '%' := fun e => hmem (e ▸ List.mem_cons_self c rest)
    have hr : '%' ∉ rest := fun e => hmem (List.mem_cons_of_mem c e)
    by_cases hp : c = '+'
    · subst hp
      rw [unescape_cons_plus, if_neg h3, ih hr]
      rfl
    · rw [unescape_cons_plain h1 h2 hc hp, ih hr]
      rfl

theorem unescape_ok_eq {mode : Mode} (h3 : mode ≠ Mode.queryComponent) :
    ∀ {s out : Str}, '%' ∉ s → unescape mode s = .ok out → out = s := by
  intro s
  induction s with
  | nil =>
    intro out _ h
    cases h
    rfl
  | cons c rest ih =>
    intro out hmem h
    have hc : c ≠ '%' := fun e => hmem (e ▸ List.mem_cons_self c rest)
    have hr : '%' ∉ rest := fun e => hmem (List.mem_cons_of_mem c e)
    by_cases hp : c = '+'
    · subst hp
      rw [unescape_cons_plus, if_neg h3] at h
      cases hrec : unescape mode rest with
      | error e => rw [hrec] at h; cases h
      | ok t =>
        rw [hrec] at h
        cases h
        rw [ih hr hrec]
    · by_cases hhz : (mode = Mode.host ∨ mode = Mode.zone) ∧ c.toNat < 0x80 ∧
          shouldEscape c mode = true
      · rw [show unescape mode (c :: rest) = .error .hostChar from by
            conv_lhs => unfold unescape
            rw [if_neg hc, if_neg hp, if_pos hhz]] at h
        cases h
      · rw [show unescape mode (c :: rest) = (unescape mode rest).map (c :: ·) from by
            conv_lhs => unfold unescape
            rw [if_neg hc, if_neg hp, if_neg hhz]] at h
        cases hrec : unescape mode rest with
        | error e => rw [hrec] at h; cases h
        | ok t =>
          rw [hrec] at h
          cases h
          rw [ih hr hrec]

theorem unescape_query_block (r : Str) :
    unescape Mode.queryComponent ('%' :: '2' :: 'B' :: r) =
      (unescape Mode.queryComponent r).map ('+' :: ·) := rfl

theorem unescape_query_cons {c : Char} (hc : c ≠ '%') (hp : c ≠ '+') (r : Str) :
    unescape Mode.queryComponent (c :: r) =
      (unescape Mode.queryComponent r).map (c :: ·) := by
  exact unescape_cons_plain (by simp) (by simp) hc hp r

theorem unescape_query_expand : ∀ {s : Str}, '%' ∉ s →
    unescape Mode.queryComponent (expandChar s '+' (strOf "%2B")) = .ok s := by
  intro s
  induction s with
  | nil => intro _; rfl
  | cons c t ih =>
    intro hmem
    have hc : c ≠ '%' := fun e => hmem (e ▸ List.mem_cons_self c t)
    have ht : '%' ∉ t := fun e => hmem (List.mem_cons_of_mem c e)
    rw [expandChar_cons]
    by_cases hp : c = '+'
    · rw [if_pos hp, hp]
      show unescape Mode.queryComponent ('%' :: '2' :: 'B' :: expandChar t '+' (strOf "%2B")) =
        .ok ('+' :: t)
      rw [unescape_query_block, ih ht]
      rfl
    · rw [if_neg hp]
      show unescape Mode.queryComponent (c :: expandChar t '+' (strOf "%2B")) = .ok (c :: t)
      rw [unescape_query_cons hc hp, ih ht]
      rfl

/-! ### escape lemmas -/

theorem escapeStr_cons (c : Char) (t : Str) (mode : Mode) :
    escapeStr (c :: t) mode = escapeChar c mode ++ escapeStr t mode := by
  simp [escapeStr]

theorem upperHexDigit_hex {n : Nat} (h : n < 16) : isHexC (upperHexDigit n) = true := by
  interval_cases n <;> decide

theorem unhexC_upperHexDigit {n : Nat} (h : n < 16) : unhexC (upperHexDigit n) = n := by
  interval_cases n <;> decide

theorem upperHexDigit_ne {n : Nat} (h : n < 16) :
    upperHexDigit n ≠ '%' ∧ upperHexDigit n ≠ '/' ∧ upperHexDigit n ≠ '#' ∧
      upperHexDigit n ≠ Char.ofNat 92 := by
  interval_cases n <;> decide

theorem escapeChar_esc {c : Char} {mode : Mode} (hse : shouldEscape c mode = true)
    (hsp : ¬ (c = ' ' ∧ mode = Mode.queryComponent)) :
    escapeChar c mode =
      ['%', upperHexDigit (c.toNat / 16 % 16), upperHexDigit (c.toNat % 16)] := by
  unfold escapeChar
  rw [if_pos hse, if_neg hsp]

theorem hash_not_in_escapeChar_path (c : Char) : '#' ∉ escapeChar c Mode.path := by
  by_cases hse : shouldEscape c Mode.path = true
  · rw [escapeChar_esc hse (fun h => nomatch h.2)]
    intro hx
    have h1 := upperHexDigit_ne (n := c.toNat / 16 % 16) (Nat.mod_lt _ (by norm_num))
    have h2 := upperHexDigit_ne (n := c.toNat % 16) (Nat.mod_lt _ (by norm_num))
    rcases List.mem_cons.mp hx with h | hx
    · exact absurd h (by decide)
    rcases List.mem_cons.mp hx with h | hx
    · exact h1.2.2.1 h.symm
    rcases List.mem_cons.mp hx with h | hx
    · exact h2.2.2.1 h.symm
    · simp at hx
  · unfold escapeChar
    rw [if_neg hse]
    intro hx
    rcases List.mem_cons.mp hx with h | hx
    · rw [← h] at hse
      exact hse (by decide)
    · simp at hx

theorem bslash_not_in_escapeChar_path (c : Char) :
    Char.ofNat 92 ∉ escapeChar c Mode.path := by
  by_cases hse : shouldEscape c Mode.path = true
  · rw [escapeChar_esc hse (fun h => nomatch h.2)]
    intro hx
    have h1 := upperHexDigit_ne (n := c.toNat / 16 % 16) (Nat.mod_lt _ (by norm_num))
    have h2 := upperHexDigit_ne (n := c.toNat % 16) (Nat.mod_lt _ (by norm_num))
    rcases List.mem_cons.mp hx with h | hx
    · exact absurd h (by decide)
    rcases List.mem_cons.mp hx with h | hx
    · exact h1.2.2.2 h.symm
    rcases List.mem_cons.mp hx with h | hx
    · exact h2.2.2.2 h.symm
    · simp at hx
  · unfold escapeChar
    rw [if_neg hse]
    intro hx
    rcases List.mem_cons.mp hx with h | hx
    · rw [← h] at hse
      exact hse (by decide)
    · simp at hx

theorem hash_not_in_escapeStr (x : Str) : '#' ∉ escapeStr x Mode.path := by
  induction x with
  | nil => simp [escapeStr]
  | cons c t ih =>
    rw [escapeStr_cons]
    intro hx
    rcases List.mem_append.mp hx with h | h
    · exact hash_not_in_escapeChar_path c h
    · exact ih h

theorem bslash_not_in_escapeStr (x : Str) : Char.ofNat 92 ∉ escapeStr x Mode.path := by
  induction x with
  | nil => simp [escapeStr]
  | cons c t ih =>
    rw [escapeStr_cons]
    intro hx
    rcases List.mem_append.mp hx with h | h
    · exact bslash_not_in_escapeChar_path c h
    · exact ih h

theorem escapeChar_slash_path : escapeChar '/' Mode.path = ['/'] := by decide

theorem slash_not_in_escapeChar_path {c : Char} (hc : c ≠ '/') :
    '/' ∉ escapeChar c Mode.path := by
  by_cases hse : shouldEscape c Mode.path = true
  · rw [escapeChar_esc hse (fun h => nomatch h.2)]
    intro hx
    have h1 := upperHexDigit_ne (n := c.toNat / 16 % 16) (Nat.mod_lt _ (by norm_num))
    have h2 := upperHexDigit_ne (n := c.toNat % 16) (Nat.mod_lt _ (by norm_num))
    rcases List.mem_cons.mp hx with h | hx
    · exact absurd h (by decide)
    rcases List.mem_cons.mp hx with h | hx
    · exact h1.2.1 h.symm
    rcases List.mem_cons.mp hx with h | hx
    · exact h2.2.1 h.symm
    · simp at hx
  · unfold escapeChar
    rw [if_neg hse]
    intro hx
    rcases List.mem_cons.mp hx with h | hx
    · exact hc h.symm
    · simp at hx

/-! ### splitOnChar structure -/

theorem splitOnChar_cons (c : Char) (cs : Str) (sep : Char) :
    splitOnChar (c :: cs) sep =
      if c = sep then [] :: splitOnChar cs sep
      else (c :: (splitOnChar cs sep).headD []) :: (splitOnChar cs sep).tail := by
  cases h : splitOnChar cs sep with
  | nil => exact absurd h (splitOnChar_ne_nil cs sep)
  | cons r rs =>
    by_cases hc : c = sep
    · simp [splitOnChar, h, hc]
    · simp [splitOnChar, h, hc]

theorem splitOnChar_append_no_sep {B : Str} {sep : Char} (h : sep ∉ B) (s : Str) :
    splitOnChar (B ++ s) sep =
      (B ++ (splitOnChar s sep).headD []) :: (splitOnChar s sep).tail := by
  induction B with
  | nil =>
    cases hs : splitOnChar s sep with
    | nil => exact absurd hs (splitOnChar_ne_nil s sep)
    | cons r rs => simp [hs]
  | cons c B ih =>
    have hc : c ≠ sep := fun e => h (e ▸ List.mem_cons_self c B)
    have hB : sep ∉ B := fun e => h (List.mem_cons_of_mem c e)
    rw [List.cons_append, splitOnChar_cons, if_neg hc, ih hB]
    simp

theorem splitOnChar_escapeStr (x : Str) :
    splitOnChar (escapeStr x Mode.path) '/' =
      (splitOnChar x '/').map (escapeStr · Mode.path) := by
  induction x with
  | nil => rfl
  | cons c t ih =>
    rw [escapeStr_cons]
    by_cases hc : c = '/'
    · subst hc
      rw [escapeChar_slash_path]
      show splitOnChar ('/' :: escapeStr t Mode.path) '/' = _
      rw [splitOnChar_cons, if_pos rfl, ih, splitOnChar_cons, if_pos rfl]
      simp [escapeStr]
    · rw [splitOnChar_append_no_sep (slash_not_in_escapeChar_path hc), ih,
        splitOnChar_cons, if_neg hc]
      cases hs : splitOnChar t '/' with
      | nil => exact absurd hs (splitOnChar_ne_nil t '/')
      | cons r rs => simp [escapeStr_cons]

/-! ### unescape/escape roundtrip for path segments -/

theorem unescape_pathSegment_esc {a b : Char} (ha : isHexC a = true) (hb : isHexC b = true)
    (r : Str) :
    unescape Mode.pathSegment ('%' :: a :: b :: r) =
      (unescape Mode.pathSegment r).map (Char.ofNat (unhexC a * 16 + unhexC b) :: ·) := by
  simp [unescape, ha, hb]

theorem unescape_escapeStr_path : ∀ {x : Str}, (∀ c ∈ x, c.toNat < 128) →
    unescape Mode.pathSegment (escapeStr x Mode.path) = .ok x := by
  intro x
  induction x with
  | nil => intro _; rfl
  | cons c t ih =>
    intro ha
    have hc : c.toNat < 128 := ha c (List.mem_cons_self c t)
    have ht : ∀ d ∈ t, d.toNat < 128 := fun d hd => ha d (List.mem_cons_of_mem c hd)
    rw [escapeStr_cons]
    by_cases hse : shouldEscape c Mode.path = true
    · rw [escapeChar_esc hse (fun h => nomatch h.2)]
      have h16a : c.toNat / 16 % 16 < 16 := Nat.mod_lt _ (by norm_num)
      have h16b : c.toNat % 16 < 16 := Nat.mod_lt _ (by norm_num)
      show unescape Mode.pathSegment ('%' :: upperHexDigit (c.toNat / 16 % 16) ::
        upperHexDigit (c.toNat % 16) :: escapeStr t Mode.path) = .ok (c :: t)
      rw [unescape_pathSegment_esc (upperHexDigit_hex h16a) (upperHexDigit_hex h16b),
        ih ht, unhexC_upperHexDigit h16a, unhexC_upperHexDigit h16b]
      have hval : c.toNat / 16 % 16 * 16 + c.toNat % 16 = c.toNat := by omega
      rw [hval, Char.ofNat_toNat]
      rfl
    · have hblock : escapeChar c Mode.path = [c] := by
        unfold escapeChar
        rw [if_neg hse]
      rw [hblock]
      have hcp : c ≠ '%' := fun e => hse (e ▸ by decide)
      show unescape Mode.pathSegment (c :: escapeStr t Mode.path) = .ok (c :: t)
      by_cases hp : c = '+'
      · subst hp
        rw [unescape_cons_plus, ih ht]
        rfl
      · rw [unescape_cons_plain (by simp) (by simp) hcp hp, ih ht]
        rfl

/-! ### misc -/

theorem map_bslash_noop {s : Str} (h : Char.ofNat 92 ∉ s) :
    s.map (fun c => if c = Char.ofNat 92 then '/' else c) = s := by
  conv_rhs => rw [← List.map_id s]
  apply List.map_congr_left
  intro a haa
  have : a ≠ Char.ofNat 92 := fun e => h (e ▸ haa)
  simp [this]

theorem idxOfSub_none {s t : Str} {p : Char} (h : p ∉ s) : idxOfSub s (p :: t) = none := by
  induction s with
  | nil => rfl
  | cons c cs ih =>
    have hc : c ≠ p := fun e => h (e ▸ List.mem_cons_self c cs)
    have hcs : p ∉ cs := fun e => h (List.mem_cons_of_mem c e)
    unfold idxOfSub
    rw [if_neg (by simp [startsWith, hc])]
    show Option.map (fun x => x + 1) (idxOfSub cs (p :: t)) = none
    rw [ih hcs]
    rfl

/-! ### cleanStack equations -/

theorem cleanStack_drop {rooted : Bool} {e : Str} (h : e = [] ∨ e = strOf ".")
    (stack es : List Str) :
    cleanStack rooted stack (e :: es) = cleanStack rooted stack es := by
  conv_lhs => unfold cleanStack
  rw [if_pos h]

theorem cleanStack_dd_nil {rooted : Bool} {e : Str} (h1 : ¬ (e = [] ∨ e = strOf "."))
    (h2 : e = strOf "..") (es : List Str) :
    cleanStack rooted [] (e :: es) =
      cleanStack rooted (if rooted then [] else [strOf ".."]) es := by
  conv_lhs => unfold cleanStack
  rw [if_neg h1, if_pos h2]

theorem cleanStack_dd_dd {rooted : Bool} {e top : Str} (h1 : ¬ (e = [] ∨ e = strOf "."))
    (h2 : e = strOf "..") (h3 : top = strOf "..") (rest es : List Str) :
    cleanStack rooted (top :: rest) (e :: es) =
      cleanStack rooted (strOf ".." :: top :: rest) es := by
  conv_lhs => unfold cleanStack
  rw [if_neg h1, if_pos h2]
  show (if top = strOf ".." then cleanStack rooted (strOf ".." :: top :: rest) es
        else cleanStack rooted rest es) = _
  rw [if_pos h3]

theorem cleanStack_dd_pop {rooted : Bool} {e top : Str} (h1 : ¬ (e = [] ∨ e = strOf "."))
    (h2 : e = strOf "..") (h3 : ¬ top = strOf "..") (rest es : List Str) :
    cleanStack rooted (top :: rest) (e :: es) = cleanStack rooted rest es := by
  conv_lhs => unfold cleanStack
  rw [if_neg h1, if_pos h2]
  show (if top = strOf ".." then cleanStack rooted (strOf ".." :: top :: rest) es
        else cleanStack rooted rest es) = _
  rw [if_neg h3]

theorem cleanStack_push {rooted : Bool} {e : Str} (h1 : ¬ (e = [] ∨ e = strOf "."))
    (h2 : ¬ e = strOf "..") (stack es : List Str) :
    cleanStack rooted stack (e :: es) = cleanStack rooted (e :: stack) es := by
  conv_lhs => unfold cleanStack
  rw [if_neg h1, if_neg h2]

/-! ### cleanStack element facts -/

theorem cleanStack_mem {rooted : Bool} :
    ∀ (es stack : List Str), ∀ y ∈ cleanStack rooted stack es,
      y ∈ stack ∨ y ∈ es ∨ y = strOf ".." := by
  intro es
  induction es with
  | nil =>
    intro stack y hy
    exact .inl hy
  | cons e es ih =>
    intro stack y hy
    by_cases h1 : e = [] ∨ e = strOf "."
    · rw [cleanStack_drop h1] at hy
      rcases ih stack y hy with h | h | h
      · exact .inl h
      · exact .inr (.inl (List.mem_cons_of_mem e h))
      · exact .inr (.inr h)
    · by_cases h2 : e = strOf ".."
      · cases stack with
        | nil =>
          rw [cleanStack_dd_nil h1 h2] at hy
          rcases ih _ y hy with h | h | h
          · cases rooted with
            | true => simp at h
            | false =>
              simp at h
              exact .inr (.inr h)
          · exact .inr (.inl (List.mem_cons_of_mem e h))
          · exact .inr (.inr h)
        | cons top rest =>
          by_cases h3 : top = strOf ".."
          · rw [cleanStack_dd_dd h1 h2 h3] at hy
            rcases ih _ y hy with h | h | h
            · rcases List.mem_cons.mp h with h | h
              · exact .inr (.inr h)
              · exact .inl h
            · exact .inr (.inl (List.mem_cons_of_mem e h))
            · exact .inr (.inr h)
          · rw [cleanStack_dd_pop h1 h2 h3] at hy
            rcases ih rest y hy with h | h | h
            · exact .inl (List.mem_cons_of_mem top h)
            · exact .inr (.inl (List.mem_cons_of_mem e h))
            · exact .inr (.inr h)
      · rw [cleanStack_push h1 h2] at hy
        rcases ih _ y hy with h | h | h
        · rcases List.mem_cons.mp h with h | h
          · refine .inr (.inl ?_)
            rw [h]
            exact List.mem_cons_self e es
          · exact .inl h
        · exact .inr (.inl (List.mem_cons_of_mem e h))
        · exact .inr (.inr h)

theorem cleanStack_ne_nil {rooted : Bool} :
    ∀ (es stack : List Str), (∀ y ∈ stack, y ≠ []) →
      ∀ y ∈ cleanStack rooted stack es, y ≠ [] := by
  intro es
  induction es with
  | nil =>
    intro stack hs y hy
    exact hs y hy
  | cons e es ih =>
    intro stack hs y hy
    by_cases h1 : e = [] ∨ e = strOf "."
    · rw [cleanStack_drop h1] at hy
      exact ih stack hs y hy
    · by_cases h2 : e = strOf ".."
      · cases stack with
        | nil =>
          rw [cleanStack_dd_nil h1 h2] at hy
          refine ih _ ?_ y hy
          intro z hz
          cases rooted with
          | true => simp at hz
          | false =>
            simp at hz
            subst hz
            decide
        | cons top rest =>
          by_cases h3 : top = strOf ".."
          · rw [cleanStack_dd_dd h1 h2 h3] at hy
            refine ih _ ?_ y hy
            intro z hz
            rcases List.mem_cons.mp hz with h | h
            · subst h
              decide
            · exact hs z h
          · rw [cleanStack_dd_pop h1 h2 h3] at hy
            exact ih rest (fun z hz => hs z (List.mem_cons_of_mem top hz)) y hy
      · rw [cleanStack_push h1 h2] at hy
        refine ih _ ?_ y hy
        intro z hz
        rcases List.mem_cons.mp hz with h | h
        · subst h
          exact fun he => h1 (.inl he)
        · exact hs z h

/-! ### pathClean -/

theorem pathClean_eq (p : Str) (hp : p ≠ []) :
    pathClean p =
      (let rooted := startsWith p (strOf "/")
       let body := joinWith (strOf "/") (cleanStack rooted [] (splitOnChar p '/')).reverse
       if rooted then strOf "/" ++ body else if body = [] then strOf "." else body) := by
  unfold pathClean
  rw [if_neg hp]

theorem pathClean_mem {p : Str} : ∀ c ∈ pathClean p, c ∈ p ∨ c = '/' ∨ c = '.' := by
  intro c hc
  by_cases hp : p = []
  · subst hp
    have hc' : c ∈ ['.'] := hc
    have : c = '.' := by simpa using hc'
    exact .inr (.inr this)
  · rw [pathClean_eq p hp] at hc
    simp only [] at hc
    have hbody : ∀ x ∈ joinWith (strOf "/")
        (cleanStack (startsWith p (strOf "/")) [] (splitOnChar p '/')).reverse,
        x ∈ p ∨ x = '/' ∨ x = '.' := by
      intro x hx
      rcases mem_joinWith _ x hx with hsep | ⟨e, he, hxe⟩
      · have hsep' : x ∈ ['/'] := hsep
        have : x = '/' := by simpa using hsep'
        exact .inr (.inl this)
      · rcases cleanStack_mem _ _ e (List.mem_reverse.mp he) with h | h | h
        · simp at h
        · exact .inl (mem_splitOnChar e h x hxe)
        · subst h
          have : x = '.' := by
            rcases List.mem_cons.mp hxe with h | h
            · exact h
            · simpa using h
          exact .inr (.inr this)
    by_cases hr : startsWith p (strOf "/") = true
    · rw [if_pos hr] at hc
      rcases List.mem_append.mp hc with h | h
      · have h' : c ∈ ['/'] := h
        have : c = '/' := by simpa using h'
        exact .inr (.inl this)
      · exact hbody c h
    · rw [if_neg hr] at hc
      by_cases hb : joinWith (strOf "/")
          (cleanStack (startsWith p (strOf "/")) [] (splitOnChar p '/')).reverse = []
      · rw [if_pos hb] at hc
        have hc' : c ∈ ['.'] := hc
        have : c = '.' := by simpa using hc'
        exact .inr (.inr this)
      · rw [if_neg hb] at hc
        exact hbody c hc

/-! ### collapse equations -/

theorem collapseAux_cons_sym {sym : Char} {t : Bool} (s : Str) (m : Bool) :
    collapseAux sym t (sym :: s) m = collapseAux sym t s true := by
  conv_lhs => unfold collapseAux
  rw [if_pos rfl]

theorem collapseAux_cons_marked {sym : Char} {t : Bool} {c : Char} (hc : c ≠ sym) (s : Str) :
    collapseAux sym t (c :: s) true = sym :: c :: collapseAux sym t s false := by
  conv_lhs => unfold collapseAux
  rw [if_neg hc, if_pos rfl]

theorem collapseAux_cons_plain {sym : Char} {t : Bool} {c : Char} (hc : c ≠ sym) (s : Str) :
    collapseAux sym t (c :: s) false = c :: collapseAux sym t s false := by
  conv_lhs => unfold collapseAux
  rw [if_neg hc, if_neg (by decide)]

theorem collapseAux_append_no_sym {sym : Char} {t : Bool} :
    ∀ {e : Str}, sym ∉ e → ∀ s : Str,
      collapseAux sym t (e ++ s) false = e ++ collapseAux sym t s false := by
  intro e
  induction e with
  | nil =>
    intro _ s
    rfl
  | cons c cs ih =>
    intro h s
    have hc : c ≠ sym := fun e' => h (e' ▸ List.mem_cons_self c cs)
    have hcs : sym ∉ cs := fun e' => h (List.mem_cons_of_mem c e')
    rw [List.cons_append, collapseAux_cons_plain hc, ih hcs s]
    rfl

theorem collapseAux_nil_false {sym : Char} {t : Bool} : collapseAux sym t [] false = [] := by
  conv_lhs => unfold collapseAux
  rw [if_neg (by simp)]

theorem collapseAux_no_sym {sym : Char} {t : Bool} {s : Str} (h : sym ∉ s) :
    collapseAux sym t s false = s := by
  have h0 := collapseAux_append_no_sym (t := t) h []
  rw [List.append_nil] at h0
  rw [h0, collapseAux_nil_false, List.append_nil]

/-! ### joinWith structure -/

theorem joinWith_cons_cons (sep : Str) (y z : Str) (zs : List Str) :
    joinWith sep (y :: z :: zs) = y ++ sep ++ joinWith sep (z :: zs) := rfl

theorem collapseGo_joinWith : ∀ {L : List Str}, (∀ e ∈ L, e ≠ []) → (∀ e ∈ L, '/' ∉ e) →
    collapseGo (joinWith (strOf "/") L) '/' true = joinWith (strOf "/") L := by
  intro L
  induction L with
  | nil =>
    intro _ _
    rfl
  | cons e L ih =>
    intro h1 h2
    cases L with
    | nil =>
      show collapseGo e '/' true = e
      exact collapseAux_no_sym (h2 e (by simp))
    | cons y ys =>
      rw [joinWith_cons_cons]
      unfold collapseGo
      have hassoc : e ++ strOf "/" ++ joinWith (strOf "/") (y :: ys) =
          e ++ ('/' :: joinWith (strOf "/") (y :: ys)) := by
        rw [List.append_assoc]
        rfl
      rw [hassoc, collapseAux_append_no_sym (h2 e (by simp)), collapseAux_cons_sym]
      congr 1
      obtain ⟨d, y', rfl⟩ : ∃ d y', y = d :: y' := by
        cases y with
        | nil => exact absurd rfl (h1 _ (by simp))
        | cons d y' => exact ⟨d, y', rfl⟩
      have hd : d ≠ '/' := fun hdd => h2 (d :: y') (by simp) (by rw [hdd]; exact .head _)
      have hih := ih (fun z hz => h1 z (List.mem_cons_of_mem e hz))
        (fun z hz => h2 z (List.mem_cons_of_mem e hz))
      unfold collapseGo at hih
      obtain ⟨R, hR⟩ : ∃ R, joinWith (strOf "/") ((d :: y') :: ys) = d :: R := by
        cases ys with
        | nil => exact ⟨y', rfl⟩
        | cons z zs =>
          refine ⟨y' ++ strOf "/" ++ joinWith (strOf "/") (z :: zs), ?_⟩
          rw [joinWith_cons_cons]
          simp
      rw [hR] at hih ⊢
      rw [collapseAux_cons_marked hd]
      rw [collapseAux_cons_plain hd] at hih
      rw [(List.cons.inj hih).2]

theorem splitOnChar_joinWith : ∀ {L : List Str}, L ≠ [] → (∀ e ∈ L, '/' ∉ e) →
    splitOnChar (joinWith (strOf "/") L) '/' = L := by
  intro L
  induction L with
  | nil =>
    intro hL _
    exact absurd rfl hL
  | cons e L ih =>
    intro _ h2
    cases L with
    | nil => exact splitOnChar_no_sep (h2 e (by simp))
    | cons y ys =>
      rw [joinWith_cons_cons, List.append_assoc,
        splitOnChar_append_no_sep (h2 e (by simp))]
      rw [show splitOnChar (strOf "/" ++ joinWith (strOf "/") (y :: ys)) '/' =
          [] :: splitOnChar (joinWith (strOf "/") (y :: ys)) '/' from by
        show splitOnChar ('/' :: joinWith (strOf "/") (y :: ys)) '/' = _
        rw [splitOnChar_cons, if_pos rfl]]
      rw [ih (by simp) (fun z hz => h2 z (List.mem_cons_of_mem e hz))]
      simp

theorem startsWith_slash_joinWith {L : List Str} (h1 : ∀ e ∈ L, e ≠ [])
    (h2 : ∀ e ∈ L, '/' ∉ e) (hL : joinWith (strOf "/") L ≠ []) :
    startsWith (joinWith (strOf "/") L) (strOf "/") = false := by
  cases L with
  | nil => exact absurd rfl hL
  | cons e L' =>
    obtain ⟨d, y', rfl⟩ : ∃ d y', e = d :: y' := by
      cases e with
      | nil => exact absurd rfl (h1 _ (by simp))
      | cons d y' => exact ⟨d, y', rfl⟩
    have hd : d ≠ '/' := fun hdd => h2 (d :: y') (by simp) (by rw [hdd]; exact .head _)
    cases L' with
    | nil => simp [startsWith, hd]
    | cons z zs =>
      rw [joinWith_cons_cons, List.cons_append, List.cons_append]
      simp [startsWith, hd]

/-! ### trimLeading equations -/

theorem startsWith_slash_cons (body : Str) :
    startsWith ('/' :: body) (strOf "/") = true := by
  cases body <;> rfl

theorem trimLeading_slash_cons (body : Str) :
    trimLeading ('/' :: body) (strOf "/") = body := by
  unfold trimLeading
  rw [if_pos (startsWith_slash_cons body)]
  rfl

theorem trimLeading_not {s p : Str} (h : startsWith s p = false) : trimLeading s p = s := by
  unfold trimLeading
  rw [h]
  rfl

/-! ### unescapeParts inversion -/

theorem unescapeParts_ok : ∀ {ps : List Str} {ds : List Str},
    unescapeParts ps = .ok ds → ∀ d ∈ ds, ∃ p ∈ ps, unescape Mode.pathSegment p = .ok d := by
  intro ps
  induction ps with
  | nil =>
    intro ds h d hd
    cases h
    simp at hd
  | cons p ps ih =>
    intro ds h d hd
    unfold unescapeParts at h
    cases hp : unescape Mode.pathSegment p with
    | error e => rw [hp] at h; cases h
    | ok d0 =>
      rw [hp] at h
      cases hps : unescapeParts ps with
      | error e => rw [hps] at h; cases h
      | ok ds0 =>
        rw [hps] at h
        cases h
        rcases List.mem_cons.mp hd with h | h
        · exact ⟨p, List.mem_cons_self p ps, h ▸ hp⟩
        · obtain ⟨q, hq, hqd⟩ := ih hps d h
          exact ⟨q, List.mem_cons_of_mem p hq, hqd⟩

/-! ### pathClean branch equations -/

theorem pathClean_rooted {p : Str} (hp : p ≠ []) (hr : startsWith p (strOf "/") = true) :
    pathClean p =
      '/' :: joinWith (strOf "/") (cleanStack true [] (splitOnChar p '/')).reverse := by
  unfold pathClean
  rw [if_neg hp, hr]
  rfl

theorem pathClean_unrooted_nil {p : Str} (hp : p ≠ [])
    (hr : startsWith p (strOf "/") = false)
    (hb : joinWith (strOf "/") (cleanStack false [] (splitOnChar p '/')).reverse = []) :
    pathClean p = strOf "." := by
  unfold pathClean
  rw [if_neg hp, hr]
  show (if joinWith (strOf "/") (cleanStack false [] (splitOnChar p '/')).reverse = []
        then strOf "." else joinWith (strOf "/") (cleanStack false [] (splitOnChar p '/')).reverse) =
    strOf "."
  rw [if_pos hb]

theorem pathClean_unrooted_nonnil {p : Str} (hp : p ≠ [])
    (hr : startsWith p (strOf "/") = false)
    (hb : joinWith (strOf "/") (cleanStack false [] (splitOnChar p '/')).reverse ≠ []) :
    pathClean p = joinWith (strOf "/") (cleanStack false [] (splitOnChar p '/')).reverse := by
  unfold pathClean
  rw [if_neg hp, hr]
  show (if joinWith (strOf "/") (cleanStack false [] (splitOnChar p '/')).reverse = []
        then strOf "." else joinWith (strOf "/") (cleanStack false [] (splitOnChar p '/')).reverse) =
    _
  rw [if_neg hb]

/-! ### normalizePath core -/

theorem normalizePath_parts_no_hash {raw out : Str} (hraw : raw ≠ [])
    (hgood : ∀ part ∈ splitOnChar (collapseGo ((trimLeading (pathClean raw) (strOf "/")).map
        fun c => if c = Char.ofNat 92 then '/' else c) '/' true) '/',
      ∀ d, unescape Mode.pathSegment part = .ok d → '#' ∉ d)
    (h : normalizePathGo raw = .ok out) : '#' ∉ out := by
  unfold normalizePathGo at h
  rw [if_neg hraw] at h
  simp only [] at h
  cases he : unescapeParts (splitOnChar (collapseGo ((trimLeading (pathClean raw)
      (strOf "/")).map fun c => if c = Char.ofNat 92 then '/' else c) '/' true) '/') with
  | error e => rw [he] at h; cases h
  | ok parts2 =>
    rw [he] at h
    have h' : (if joinWith (strOf "/") (parts2.map toLowerStr) = strOf "*"
        then Except.ok ([] : Str)
        else Except.ok (joinWith (strOf "/") (parts2.map toLowerStr))) = Except.ok out := h
    by_cases hstar : joinWith (strOf "/") (parts2.map toLowerStr) = strOf "*"
    · rw [if_pos hstar] at h'
      cases h'
      simp
    · rw [if_neg hstar] at h'
      cases h'
      intro hx
      rcases mem_joinWith _ '#' hx with h1 | ⟨q, hq, hxq⟩
      · have h1' : '#' ∈ ['/'] := h1
        simp at h1'
      · rcases List.mem_map.mp hq with ⟨d, hd, hdq⟩
        obtain ⟨part, hpart, hpd⟩ := unescapeParts_ok he d hd
        have hnh : '#' ∉ d := hgood part hpart d hpd
        rw [← hdq] at hxq
        exact toLowerStr_no (by decide) hnh hxq

theorem parts_of_body {x : Str} (hax : ∀ c ∈ x, c.toNat < 128) (hhx : '#' ∉ x)
    {S : List Str}
    (hSmem : ∀ y ∈ S, y ∈ (splitOnChar x '/').map (escapeStr · Mode.path) ∨ y = strOf "..")
    (hSne : ∀ y ∈ S, y ≠ []) (hSnosl : ∀ y ∈ S, '/' ∉ y) :
    ∀ part ∈ splitOnChar (collapseGo ((joinWith (strOf "/") S).map
        fun c => if c = Char.ofNat 92 then '/' else c) '/' true) '/',
      ∀ d, unescape Mode.pathSegment part = .ok d → '#' ∉ d := by
  have hb : Char.ofNat 92 ∉ joinWith (strOf "/") S := by
    intro hmem
    rcases mem_joinWith S _ hmem with h0 | ⟨e, he, hxe⟩
    · have h0' : Char.ofNat 92 ∈ ['/'] := h0
      have : Char.ofNat 92 = '/' := by simpa using h0'
      exact absurd this (by decide)
    · rcases hSmem e he with h1 | h1
      · rcases List.mem_map.mp h1 with ⟨e0, _, he0⟩
        rw [← he0] at hxe
        exact bslash_not_in_escapeStr e0 hxe
      · rw [h1] at hxe
        have : Char.ofNat 92 ∈ ['.', '.'] := hxe
        have h2 : Char.ofNat 92 = '.' := by
          rcases List.mem_cons.mp this with h2 | h2
          · exact h2
          · simpa using h2
        exact absurd h2 (by decide)
  rw [map_bslash_noop hb, collapseGo_joinWith hSne hSnosl]
  cases S with
  | nil =>
    intro part hpart d hd
    have hpart' : part ∈ [([] : Str)] := hpart
    have : part = [] := by simpa using hpart'
    subst this
    cases hd
    simp
  | cons s0 S' =>
    rw [splitOnChar_joinWith (by simp) hSnosl]
    intro part hpart d hd
    rcases hSmem part hpart with h0 | h0
    · rcases List.mem_map.mp h0 with ⟨e, he, hee⟩
      have hae : ∀ c ∈ e, c.toNat < 128 := fun c hc => hax c (mem_splitOnChar e he c hc)
      rw [← hee, unescape_escapeStr_path hae] at hd
      cases hd
      intro hx
      exact hhx (mem_splitOnChar _ he '#' hx)
    · subst h0
      rw [show unescape Mode.pathSegment (strOf "..") = .ok (strOf "..") from by decide] at hd
      cases hd
      decide

theorem normalizePath_no_hash_plain {raw out : Str} (hh : '#' ∉ raw) (hp : '%' ∉ raw)
    (h : normalizePathGo raw = .ok out) : '#' ∉ out := by
  by_cases hraw : raw = []
  · subst hraw
    rw [show normalizePathGo [] = Except.ok [] from rfl] at h
    cases h
    simp
  · refine normalizePath_parts_no_hash hraw ?_ h
    intro part hpart d hd
    have hsub : ∀ c ∈ part, c ∈ raw ∨ c = '/' ∨ c = '.' := by
      intro c hcpart
      have h4 : c ∈ collapseGo ((trimLeading (pathClean raw) (strOf "/")).map
          fun c => if c = Char.ofNat 92 then '/' else c) '/' true :=
        mem_splitOnChar part hpart c hcpart
      rcases collapseGo_mem c h4 with h3 | h3
      · rcases List.mem_map.mp h3 with ⟨c0, hc0, hc0e⟩
        by_cases hbs : c0 = Char.ofNat 92
        · rw [← hc0e, if_pos hbs]
          exact .inr (.inl rfl)
        · rw [← hc0e, if_neg hbs]
          exact pathClean_mem c0 (trimLeading_subset c0 hc0)
      · exact .inr (.inl h3)
    have hppart : '%' ∉ part := by
      intro hx
      rcases hsub '%' hx with hin | h3 | h3
      · exact hp hin
      · exact absurd h3 (by decide)
      · exact absurd h3 (by decide)
    rw [unescape_id (by simp) (by simp) (by simp) hppart] at hd
    cases hd
    intro hx
    rcases hsub '#' hx with hin | h3 | h3
    · exact hh hin
    · exact absurd h3 (by decide)
    · exact absurd h3 (by decide)

theorem normalizePath_no_hash_escaped {x out : Str} (hhx : '#' ∉ x)
    (hax : ∀ c ∈ x, c.toNat < 128)
    (h : normalizePathGo (escapeStr x Mode.path) = .ok out) : '#' ∉ out := by
  by_cases hraw : escapeStr x Mode.path = []
  · rw [hraw] at h
    rw [show normalizePathGo [] = Except.ok [] from rfl] at h
    cases h
    simp
  · refine normalizePath_parts_no_hash hraw ?_ h
    have hsplit : splitOnChar (escapeStr x Mode.path) '/' =
        (splitOnChar x '/').map (escapeStr · Mode.path) := splitOnChar_escapeStr x
    by_cases hr : startsWith (escapeStr x Mode.path) (strOf "/") = true
    · rw [pathClean_rooted hraw hr, trimLeading_slash_cons]
      refine parts_of_body hax hhx ?_ ?_ ?_
      · intro y hy
        rcases cleanStack_mem _ _ y (List.mem_reverse.mp hy) with h0 | h0 | h0
        · simp at h0
        · exact .inl (hsplit ▸ h0)
        · exact .inr h0
      · intro y hy
        exact cleanStack_ne_nil _ _ (by simp) y (List.mem_reverse.mp hy)
      · intro y hy
        rcases cleanStack_mem _ _ y (List.mem_reverse.mp hy) with h0 | h0 | h0
        · simp at h0
        · exact splitOnChar_parts_no_sep y h0
        · rw [h0]
          decide
    · have hr' : startsWith (escapeStr x Mode.path) (strOf "/") = false :=
        Bool.eq_false_iff.mpr hr
      by_cases hbody : joinWith (strOf "/")
          (cleanStack false [] (splitOnChar (escapeStr x Mode.path) '/')).reverse = []
      · rw [pathClean_unrooted_nil hraw hr' hbody]
        intro part hpart d hd
        have hcomp : splitOnChar (collapseGo ((trimLeading (strOf ".") (strOf "/")).map
            fun c => if c = Char.ofNat 92 then '/' else c) '/' true) '/' = [strOf "."] := by
          decide
        rw [hcomp] at hpart
        have : part = strOf "." := by simpa using hpart
        subst this
        rw [show unescape Mode.pathSegment (strOf ".") = .ok (strOf ".") from by decide] at hd
        cases hd
        decide
      · rw [pathClean_unrooted_nonnil hraw hr' hbody,
          trimLeading_not (startsWith_slash_joinWith
            (fun y hy => cleanStack_ne_nil _ _ (by simp) y (List.mem_reverse.mp hy))
            (fun y hy => by
              rcases cleanStack_mem _ _ y (List.mem_reverse.mp hy) with h0 | h0 | h0
              · simp at h0
              · exact splitOnChar_parts_no_sep y h0
              · rw [h0]; decide)
            hbody)]
        refine parts_of_body hax hhx ?_ ?_ ?_
        · intro y hy
          rcases cleanStack_mem _ _ y (List.mem_reverse.mp hy) with h0 | h0 | h0
          · simp at h0
          · exact .inl (hsplit ▸ h0)
          · exact .inr h0
        · intro y hy
          exact cleanStack_ne_nil _ _ (by simp) y (List.mem_reverse.mp hy)
        · intro y hy
          rcases cleanStack_mem _ _ y (List.mem_reverse.mp hy) with h0 | h0 | h0
          · simp at h0
          · exact splitOnChar_parts_no_sep y h0
          · rw [h0]
            decide

/-! ### normalizeQuery -/

theorem normalizeQuery_no_hash {rq q : Str} (hh : '#' ∉ rq) (hp : '%' ∉ rq)
    (h : normalizeQueryGo rq = .ok q) : '#' ∉ q := by
  by_cases hnil : rq = []
  · subst hnil
    rw [show normalizeQueryGo [] = Except.ok [] from rfl] at h
    cases h
    simp
  · unfold normalizeQueryGo at h
    rw [if_neg hnil] at h
    simp only [] at h
    rw [removeAll00_expand hp, unescape_query_expand hp] at h
    have h' : Except.ok (toLowerStr (collapseGo
        (if rq ≠ [] then rq else expandChar rq '+' (strOf "%2B")) '/' false)) =
        Except.ok q := h
    rw [if_pos hnil] at h'
    cases h'
    intro hx
    have hx1 := toLowerStr_no (x := '#') (by decide) ?_ hx
    · exact hx1
    · intro hx2
      rcases collapseGo_mem '#' hx2 with h1 | h1
      · exact hh h1
      · exact absurd h1 (by decide)

/-! ### no '#' in IP renderings -/

theorem lowerHexDigit_ne_hash {m : Nat} (h : m < 16) : lowerHexDigit m ≠ '#' := by
  interval_cases m <;> decide

theorem hexRec_chars : ∀ (f n : Nat) (acc : Str), ∀ c ∈ hexRec f n acc,
    c ∈ acc ∨ ∃ m, m < 16 ∧ c = lowerHexDigit m := by
  intro f
  induction f with
  | zero =>
    intro n acc c hc
    exact .inl hc
  | succ f ih =>
    intro n acc c hc
    unfold hexRec at hc
    by_cases hn : n < 16
    · rw [if_pos hn] at hc
      rcases List.mem_cons.mp hc with h | h
      · exact .inr ⟨n, hn, h⟩
      · exact .inl h
    · rw [if_neg hn] at hc
      rcases ih _ _ c hc with h | h
      · rcases List.mem_cons.mp h with h' | h'
        · exact .inr ⟨n % 16, Nat.mod_lt _ (by norm_num), h'⟩
        · exact .inl h'
      · exact .inr h

theorem appendHex_chars {n : Nat} : ∀ c ∈ appendHex n, ∃ m, m < 16 ∧ c = lowerHexDigit m := by
  intro c hc
  rcases hexRec_chars _ _ _ c hc with h | h
  · simp at h
  · exact h

theorem v6RenderGo_succ (f : Nat) (gs : List Nat) (e : Option (Nat × Nat)) (idx : Nat)
    (first : Bool) (h8 : ¬ 8 ≤ idx) :
    v6RenderGo (f + 1) gs e idx first =
      (match e with
       | some (e0, len) =>
         if idx = e0 then
           strOf "::" ++ (if 8 ≤ e0 + len then []
             else appendHex (gs.getD (e0 + len) 0) ++ v6RenderGo f gs e (e0 + len + 1) false)
         else (if first then [] else [':']) ++ appendHex (gs.getD idx 0) ++
           v6RenderGo f gs e (idx + 1) false
       | none => (if first then [] else [':']) ++ appendHex (gs.getD idx 0) ++
           v6RenderGo f gs e (idx + 1) false) := by
  conv_lhs => unfold v6RenderGo
  rw [if_neg h8]

theorem v6RenderGo_chars : ∀ (f : Nat) (gs : List Nat) (e : Option (Nat × Nat)) (idx : Nat)
    (first : Bool), ∀ c ∈ v6RenderGo f gs e idx first,
      c = ':' ∨ ∃ m, m < 16 ∧ c = lowerHexDigit m := by
  intro f
  induction f with
  | zero =>
    intro gs e idx first c hc
    simp [v6RenderGo] at hc
  | succ f ih =>
    intro gs e idx first c hc
    by_cases h8 : 8 ≤ idx
    · rw [show v6RenderGo (f + 1) gs e idx first = [] from by
        conv_lhs => unfold v6RenderGo
        rw [if_pos h8]] at hc
      simp at hc
    · rw [v6RenderGo_succ f gs e idx first h8] at hc
      cases e with
      | none =>
        have hc2 : c ∈ (if first then [] else [':']) ++ appendHex (gs.getD idx 0) ++
            v6RenderGo f gs none (idx + 1) false := hc
        rcases List.mem_append.mp hc2 with h | h
        · rcases List.mem_append.mp h with h' | h'
          · cases first with
            | true => simp at h'
            | false =>
              have h'' : c ∈ [':'] := h'
              have : c = ':' := by simpa using h''
              exact .inl this
          · exact .inr (appendHex_chars c h')
        · exact ih _ _ _ _ c h
      | some p =>
        obtain ⟨e0, len⟩ := p
        have hc2 : c ∈ (if idx = e0 then
            strOf "::" ++ (if 8 ≤ e0 + len then []
              else appendHex (gs.getD (e0 + len) 0) ++
                v6RenderGo f gs (some (e0, len)) (e0 + len + 1) false)
          else (if first then [] else [':']) ++ appendHex (gs.getD idx 0) ++
            v6RenderGo f gs (some (e0, len)) (idx + 1) false) := hc
        by_cases hidx : idx = e0
        · rw [if_pos hidx] at hc2
          rcases List.mem_append.mp hc2 with h | h
          · have h'' : c ∈ [':', ':'] := h
            have : c = ':' := by
              rcases List.mem_cons.mp h'' with h3 | h3
              · exact h3
              · simpa using h3
            exact .inl this
          · by_cases h8' : 8 ≤ e0 + len
            · rw [if_pos h8'] at h
              simp at h
            · rw [if_neg h8'] at h
              rcases List.mem_append.mp h with h' | h'
              · exact .inr (appendHex_chars c h')
              · exact ih _ _ _ _ c h'
        · rw [if_neg hidx] at hc2
          rcases List.mem_append.mp hc2 with h | h
          · rcases List.mem_append.mp h with h' | h'
            · cases first with
              | true => simp at h'
              | false =>
                have h'' : c ∈ [':'] := h'
                have : c = ':' := by simpa using h''
                exact .inl this
            · exact .inr (appendHex_chars c h')
          · exact ih _ _ _ _ c h

theorem ipStr_no_hash (ip : List Nat) : '#' ∉ ipStr ip := by
  unfold ipStr
  by_cases hv4 : (ip.take 10).all (fun x => decide (x = 0)) = true ∧
      ip.getD 10 0 = 0xFF ∧ ip.getD 11 0 = 0xFF
  · rw [if_pos hv4]
    intro hc
    rcases mem_joinWith _ '#' hc with h | ⟨e, he, hce⟩
    · have h' : '#' ∈ ['.'] := h
      have : '#' = '.' := by simpa using h'
      exact absurd this (by decide)
    · rcases List.mem_map.mp he with ⟨v, hv, hev⟩
      rw [← hev] at hce
      exact absurd (itoa_chars v '#' hce).1 (by decide)
  · rw [if_neg hv4]
    intro hc
    rcases v6RenderGo_chars 9 _ _ 0 true '#' hc with h | ⟨m, hm, h⟩
    · exact absurd h (by decide)
    · exact lowerHexDigit_ne_hash hm h.symm

theorem NormalizeIPv6_no_hash {s t : Str} (h : NormalizeIPv6 s = .ok t) : '#' ∉ t := by
  unfold NormalizeIPv6 at h
  simp only [] at h
  by_cases hnil : trimBrackets s = []
  · rw [if_pos hnil] at h
    cases h
  · rw [if_neg hnil] at h
    cases hgp : goParseIP (trimBrackets s) with
    | none =>
      rw [hgp] at h
      cases h
    | some a =>
      rw [hgp] at h
      cases h
      intro hx
      rcases List.mem_append.mp hx with h1 | h1
      · rcases List.mem_append.mp h1 with h2 | h2
        · by_cases hL : startsWith s (strOf "[") = true
          · rw [if_pos hL] at h2
            have h2' : '#' ∈ ['['] := h2
            have : '#' = '[' := by simpa using h2'
            exact absurd this (by decide)
          · rw [if_neg hL] at h2
            simp at h2
        · exact ipStr_no_hash a h2
      · by_cases hR : endsWith s (strOf "]") = true
        · rw [if_pos hR] at h1
          have h1' : '#' ∈ [']'] := h1
          have : '#' = ']' := by simpa using h1'
          exact absurd this (by decide)
        · rw [if_neg hR] at h1
          simp at h1

theorem uint32ToIPv4_no_hash (v k : Nat) : '#' ∉ uint32ToIPv4 v k := by
  unfold uint32ToIPv4
  intro hc
  rcases mem_joinWith _ '#' hc with h | ⟨e, he, hce⟩
  · have h' : '#' ∈ ['.'] := h
    have : '#' = '.' := by simpa using h'
    exact absurd this (by decide)
  · have he2 := (List.drop_sublist _ _).subset he
    rcases List.mem_map.mp he2 with ⟨b, hb, hbe⟩
    rw [← hbe] at hce
    exact absurd (itoa_chars b '#' hce).1 (by decide)

theorem parseFirstSegs_no_hash : ∀ {l : List Str} {row : Str},
    parseFirstSegs l = .ok row → '#' ∉ row := by
  intro l
  induction l with
  | nil =>
    intro row h
    cases h
    simp
  | cons seg rest ih =>
    intro row h
    unfold parseFirstSegs at h
    cases hn : parseNumber seg 1 with
    | error e =>
      rw [hn] at h
      cases h
    | ok num =>
      rw [hn] at h
      cases ht : parseFirstSegs rest with
      | error e =>
        rw [ht] at h
        cases h
      | ok tail =>
        rw [ht] at h
        cases h
        intro hx
        rcases List.mem_append.mp hx with h1 | h1
        · rcases List.mem_append.mp h1 with h2 | h2
          · exact absurd (itoa_chars num '#' h2).1 (by decide)
          · have h2' : '#' ∈ ['.'] := h2
            have : '#' = '.' := by simpa using h2'
            exact absurd this (by decide)
        · exact ih ht h1

theorem NormalizeIPv4_no_hash {s t : Str} (h : NormalizeIPv4 s = .ok t) : '#' ∉ t := by
  unfold NormalizeIPv4 at h
  simp only [] at h
  by_cases hnil : trimSpace s = []
  · rw [if_pos hnil] at h
    cases h
  · rw [if_neg hnil] at h
    by_cases hlen : (splitOnChar (trimSpace s) '.').length > 4
    · rw [if_pos hlen] at h
      cases h
    · rw [if_neg hlen] at h
      cases hf : parseFirstSegs (splitOnChar (trimSpace s) '.').dropLast with
      | error e =>
        rw [hf] at h
        cases h
      | ok row =>
        rw [hf] at h
        cases hn : parseNumber ((splitOnChar (trimSpace s) '.').getLastD [])
            (5 - (splitOnChar (trimSpace s) '.').length) with
        | error e =>
          rw [hn] at h
          cases h
        | ok num =>
          rw [hn] at h
          cases h
          intro hx
          rcases List.mem_append.mp hx with h1 | h1
          · exact parseFirstSegs_no_hash hf h1
          · exact uint32ToIPv4_no_hash num _ h1

/-! ### normalizeHost -/

theorem headD_mem_splitOnChar (s : Str) (sep : Char) :
    ∀ c ∈ (splitOnChar s sep).headD [], c ∈ s := by
  cases hsp : splitOnChar s sep with
  | nil =>
    intro c hc
    simp at hc
  | cons r rs =>
    intro c hc
    refine @mem_splitOnChar s sep r ?_ c hc
    rw [hsp]
    exact List.mem_cons_self r rs

theorem normalizeHost_no_hash {raw : Str} {hp : HostPort} (hh : '#' ∉ raw)
    (h : normalizeHostGo raw = .ok hp) : '#' ∉ hp.host := by
  by_cases hraw : raw = []
  · subst hraw
    rw [show normalizeHostGo [] = Except.ok ⟨[], [], false⟩ from rfl] at h
    cases h
    simp
  · unfold normalizeHostGo at h
    rw [if_neg hraw] at h
    simp only [] at h
    by_cases hlen : (splitOnChar (toLowerStr raw) ':').length > 2
    · rw [if_pos hlen] at h
      cases h6 : NormalizeIPv6 raw with
      | error e =>
        rw [h6] at h
        cases h
      | ok nip =>
        rw [h6] at h
        cases h
        exact NormalizeIPv6_no_hash h6
    · rw [if_neg hlen] at h
      cases h4 : NormalizeIPv4 (trimLeading (trimLeading (collapseGo
          ((splitOnChar (toLowerStr raw) ':').headD []) '.' true) (strOf "."))
          (strOf "www.")) with
      | ok nip =>
        rw [h4] at h
        cases h
        exact NormalizeIPv4_no_hash h4
      | error e =>
        rw [h4] at h
        cases h
        intro hx
        have h1 := trimLeading_subset _ hx
        have h2 := trimLeading_subset _ h1
        rcases collapseGo_mem _ h2 with h3 | h3
        · exact toLowerStr_no (by decide) hh (headD_mem_splitOnChar _ _ _ h3)
        · exact absurd h3 (by decide)

/-! ### small helpers -/

theorem not_mem_append2 {c : Char} {A B : Str} (ha : c ∉ A) (hb : c ∉ B) :
    c ∉ A ++ B := fun h => (List.mem_append.mp h).elim ha hb

theorem not_mem_ite {c : Char} {P : Prop} [Decidable P] {A B : Str} (ha : c ∉ A)
    (hb : c ∉ B) : c ∉ if P then A else B := by
  by_cases h : P
  · rw [if_pos h]
    exact ha
  · rw [if_neg h]
    exact hb

theorem mem_append3 {A B C : Str} {c : Char} (h : c ∈ A ++ B ++ C) :
    c ∈ A ∨ c ∈ B ∨ c ∈ C := by
  rcases List.mem_append.mp h with h' | h'
  · rcases List.mem_append.mp h' with h'' | h''
    · exact .inl h''
    · exact .inr (.inl h'')
  · exact .inr (.inr h')

theorem ascii_of_mem_lit {c : Char} {L : Str}
    (hL : L.all (fun d => decide (d.toNat < 128)) = true) (h : c ∈ L) : c.toNat < 128 :=
  of_decide_eq_true (List.all_eq_true.mp hL c h)

/-! ### prepare -/

theorem withScheme_iana {raw : Str}
    (hiana : ianaIsValid (toLowerStr (cutChar raw ':').1) = true) :
    withScheme raw = toLowerStr (cutChar raw ':').1 ++ strOf "://" ++
      trimLeftChar (cutChar raw ':').2.1 '/' := by
  unfold withScheme
  show (if ianaIsValid (toLowerStr (cutChar raw ':').1) = true then
      toLowerStr (cutChar raw ':').1 ++ strOf "://" ++ trimLeftChar (cutChar raw ':').2.1 '/'
    else DefaultScheme ++ strOf "://" ++ trimLeftChar raw '/') = _
  rw [if_pos hiana]

theorem withScheme_default {raw : Str}
    (hiana : ¬ ianaIsValid (toLowerStr (cutChar raw ':').1) = true) :
    withScheme raw = DefaultScheme ++ strOf "://" ++ trimLeftChar raw '/' := by
  unfold withScheme
  show (if ianaIsValid (toLowerStr (cutChar raw ':').1) = true then
      toLowerStr (cutChar raw ':').1 ++ strOf "://" ++ trimLeftChar (cutChar raw ':').2.1 '/'
    else DefaultScheme ++ strOf "://" ++ trimLeftChar raw '/') = _
  rw [if_neg hiana]

theorem prepare_facts {s : Str} (h1 : '%' ∉ s) (h3 : ∀ c ∈ s, c.toNat < 128) :
    '%' ∉ prepare s ∧ ∀ c ∈ prepare s, c.toNat < 128 := by
  unfold prepare
  have htsub : ∀ c ∈ trimLeftChar s ' ', c ∈ s := trimLeftChar_subset
  by_cases hiana : ianaIsValid (toLowerStr (cutChar (trimLeftChar s ' ') ':').1) = true
  · rw [withScheme_iana hiana]
    constructor
    · intro hx
      rcases mem_append3 hx with h' | h' | h'
      · exact toLowerStr_no (by decide)
          (fun hm => h1 (htsub _ (cutChar_fst_subset _ hm))) h'
      · exact absurd h' (by decide)
      · exact h1 (htsub _ (cutChar_snd_subset _ (trimLeftChar_subset _ h')))
    · intro c hc
      rcases mem_append3 hc with h' | h' | h'
      · exact toLowerStr_ascii (fun d hd => h3 d (htsub d (cutChar_fst_subset d hd))) c h'
      · exact ascii_of_mem_lit (by decide) h'
      · exact h3 c (htsub c (cutChar_snd_subset c (trimLeftChar_subset c h')))
  · rw [withScheme_default hiana]
    constructor
    · intro hx
      rcases mem_append3 hx with h' | h' | h'
      · exact absurd h' (by decide)
      · exact absurd h' (by decide)
      · exact h1 (htsub _ (trimLeftChar_subset _ h'))
    · intro c hc
      rcases mem_append3 hc with h' | h' | h'
      · exact ascii_of_mem_lit (by decide) h'
      · exact ascii_of_mem_lit (by decide) h'
      · exact h3 c (htsub c (trimLeftChar_subset c h'))

/-! ### getScheme -/

theorem getSchemeAux_sub {orig : Str} : ∀ (s acc : Str) {sch r : Str},
    getSchemeAux orig acc s = .ok (sch, r) → ∀ c ∈ r, c ∈ orig ∨ c ∈ s := by
  intro s
  induction s with
  | nil =>
    intro acc sch r h c hc
    cases h
    exact .inl hc
  | cons c0 rest ih =>
    intro acc sch r h c hc
    unfold getSchemeAux at h
    by_cases ha : isAlphaC c0 = true
    · rw [if_pos ha] at h
      rcases ih _ h c hc with h' | h'
      · exact .inl h'
      · exact .inr (List.mem_cons_of_mem c0 h')
    · rw [if_neg ha] at h
      by_cases hd : (isDigitC c0 || c0 = '+' || c0 = '-' || c0 = '.' : Bool) = true
      · rw [if_pos hd] at h
        by_cases hacc : acc = []
        · rw [if_pos hacc] at h
          cases h
          exact .inl hc
        · rw [if_neg hacc] at h
          rcases ih _ h c hc with h' | h'
          · exact .inl h'
          · exact .inr (List.mem_cons_of_mem c0 h')
      · rw [if_neg hd] at h
        by_cases hcol : c0 = ':'
        · rw [if_pos hcol] at h
          by_cases hacc : acc = []
          · rw [if_pos hacc] at h
            cases h
          · rw [if_neg hacc] at h
            cases h
            exact .inr (List.mem_cons_of_mem c0 hc)
        · rw [if_neg hcol] at h
          cases h
          exact .inl hc

theorem getSchemeGo_sub {raw sch r : Str} (h : getSchemeGo raw = .ok (sch, r)) :
    ∀ c ∈ r, c ∈ raw := by
  intro c hc
  rcases getSchemeAux_sub raw [] h c hc with h' | h'
  · exact h'
  · exact h'

/-! ### parseHost / parseAuthority -/

theorem parseHostGo_id {host h0 : Str} (hp : '%' ∉ host)
    (h : parseHostGo host = .ok h0) : h0 = host := by
  have hun : ∀ {o : Str}, unescape Mode.host host = .ok o → o = host :=
    fun ho => unescape_ok_eq (by simp) hp ho
  unfold parseHostGo at h
  simp only [] at h
  split at h
  · -- bracket form
    split at h
    · cases h
    · rename_i i
      split at h
      · cases h
      · split at h
        · rename_i z hz
          rw [show strOf "%25" = '%' :: strOf "25" from rfl,
            idxOfSub_none (fun hm => hp ((List.take_sublist _ _).subset hm))] at hz
          cases hz
        · split at h
          · cases h
          · rename_i o ho
            cases h
            exact hun ho
  · split at h
    · rename_i i
      split at h
      · cases h
      · split at h
        · cases h
        · rename_i o ho
          cases h
          exact hun ho
    · split at h
      · cases h
      · rename_i o ho
        cases h
        exact hun ho

theorem parseAuthorityGo_sub {a h0 : Str} (hp : '%' ∉ a)
    (h : parseAuthorityGo a = .ok h0) : ∀ c ∈ h0, c ∈ a := by
  unfold parseAuthorityGo at h
  simp only [] at h
  split at h
  · rw [parseHostGo_id hp h]
    exact fun c hc => hc
  · rename_i i hi
    have hdp : '%' ∉ a.drop (i + 1) := fun hm => hp ((List.drop_sublist _ _).subset hm)
    split at h
    · cases h
    · rename_i host hph
      have hhost : host = a.drop (i + 1) := parseHostGo_id hdp hph
      split at h
      · cases h
      · split at h
        · split at h
          · cases h
          · cases h
            rw [hhost]
            exact fun c hc => (List.drop_sublist _ _).subset hc
        · split at h
          · cases h
          · split at h
            · cases h
            · cases h
              rw [hhost]
              exact fun c hc => (List.drop_sublist _ _).subset hc

/-! ### setPath / escapedPath -/

theorem setPathGo_eq {p : Str} (hp : '%' ∉ p) :
    setPathGo p = .ok (p, if escapeStr p Mode.path = p then [] else p) := by
  unfold setPathGo
  rw [unescape_id (by simp) (by simp) (by simp) hp]

theorem escapedPath_facts {p rp : Str} (hpp : '%' ∉ p) (hph : '#' ∉ p)
    (hpa : ∀ c ∈ p, c.toNat < 128)
    (hrp : rp = if escapeStr p Mode.path = p then [] else p) :
    '#' ∉ escapedPathGo p rp ∧
      ('%' ∉ escapedPathGo p rp ∨
        ∃ x, escapedPathGo p rp = escapeStr x Mode.path ∧ '#' ∉ x ∧
          ∀ c ∈ x, c.toNat < 128) := by
  subst hrp
  have hu : unescape Mode.path p = .ok p := unescape_id (by simp) (by simp) (by simp) hpp
  by_cases hesc : escapeStr p Mode.path = p
  · rw [if_pos hesc]
    have hep : escapedPathGo p [] = p := by
      unfold escapedPathGo
      rw [if_neg (fun hcon => hcon.1 rfl)]
      by_cases hstar : p = strOf "*"
      · rw [if_pos hstar]
        exact hstar.symm
      · rw [if_neg hstar]
        exact hesc
    rw [hep]
    exact ⟨hph, .inl hpp⟩
  · rw [if_neg hesc]
    by_cases hval : validEncoded p Mode.path = true
    · have hne : p ≠ [] := by
        intro hn
        rw [hn] at hesc
        exact hesc rfl
      have hep : escapedPathGo p p = p := by
        unfold escapedPathGo
        rw [if_pos ⟨hne, hval, hu⟩]
      rw [hep]
      exact ⟨hph, .inl hpp⟩
    · by_cases hstar : p = strOf "*"
      · have hep : escapedPathGo p p = p := by
          unfold escapedPathGo
          rw [if_neg (fun hcon => hval hcon.2.1), if_pos hstar]
          exact hstar.symm
        rw [hep]
        exact ⟨hph, .inl hpp⟩
      · have hep : escapedPathGo p p = escapeStr p Mode.path := by
          unfold escapedPathGo
          rw [if_neg (fun hcon => hval hcon.2.1), if_neg hstar]
        rw [hep]
        exact ⟨hash_not_in_escapeStr p, .inr ⟨p, rfl, hph, hpa⟩⟩

/-! ### parseAfterQuery -/

theorem parseAfterQuery_facts {scheme rest1 rawQuery : Str} {fq : Bool} {u : GoURL}
    (h1 : '%' ∉ rest1) (h2 : '#' ∉ rest1) (h3 : ∀ c ∈ rest1, c.toNat < 128)
    (h : parseAfterQuery scheme rest1 rawQuery fq = .ok u) :
    u.rawQuery = rawQuery ∧ (∀ c ∈ u.host, c ∈ rest1) ∧
      ('#' ∉ escapedPathGo u.path u.rawPath ∧
        ('%' ∉ escapedPathGo u.path u.rawPath ∨
          ∃ x, escapedPathGo u.path u.rawPath = escapeStr x Mode.path ∧ '#' ∉ x ∧
            ∀ c ∈ x, c.toNat < 128)) := by
  unfold parseAfterQuery at h
  by_cases hop : ¬ startsWith rest1 (strOf "/") = true ∧ scheme ≠ []
  · rw [if_pos hop] at h
    cases h
    refine ⟨rfl, ?_, ?_, .inl ?_⟩
    · intro c hc
      exact absurd hc (List.not_mem_nil c)
    · show '#' ∉ escapedPathGo [] []
      decide
    · show '%' ∉ escapedPathGo [] []
      decide
  · rw [if_neg hop] at h
    by_cases hcol : ¬ startsWith rest1 (strOf "/") = true ∧ scheme = [] ∧
        ((cutChar rest1 '/').1.contains ':') = true
    · rw [if_pos hcol] at h
      cases h
    · rw [if_neg hcol] at h
      simp only [] at h
      by_cases hA : (scheme ≠ [] ∨ ¬ startsWith rest1 (strOf "///") = true) ∧
          startsWith rest1 (strOf "//") = true
      · repeat rw [if_pos hA] at h
        have hsub2 : ∀ c ∈ (if ((rest1.drop 2).contains '/') = true
            then '/' :: (cutChar (rest1.drop 2) '/').2.1 else []), c ∈ rest1 ∨ c = '/' := by
          intro c hc
          by_cases hcs : ((rest1.drop 2).contains '/') = true
          · rw [if_pos hcs] at hc
            rcases List.mem_cons.mp hc with hc' | hc'
            · exact .inr hc'
            · exact .inl ((List.drop_sublist _ _).subset (cutChar_snd_subset c hc'))
          · rw [if_neg hcs] at hc
            simp at hc
        cases hpa : parseAuthorityGo (cutChar (rest1.drop 2) '/').1 with
        | error e =>
          rw [hpa] at h
          cases h
        | ok host =>
          rw [hpa] at h
          cases hsp : setPathGo (if ((rest1.drop 2).contains '/') = true
              then '/' :: (cutChar (rest1.drop 2) '/').2.1 else []) with
          | error e =>
            rw [hsp] at h
            cases h
          | ok pr =>
            obtain ⟨p0, rp0⟩ := pr
            rw [hsp] at h
            cases h
            have hp2 : '%' ∉ (if ((rest1.drop 2).contains '/') = true
                then '/' :: (cutChar (rest1.drop 2) '/').2.1 else []) := by
              intro hm
              rcases hsub2 '%' hm with hm' | hm'
              · exact h1 hm'
              · exact absurd hm' (by decide)
            rw [setPathGo_eq hp2] at hsp
            have hinj := Except.ok.inj hsp
            have hp0 : p0 = (if ((rest1.drop 2).contains '/') = true
                then '/' :: (cutChar (rest1.drop 2) '/').2.1 else []) := (Prod.mk.inj hinj).1.symm
            have hrp0 := (Prod.mk.inj hinj).2.symm
            refine ⟨rfl, ?_, ?_⟩
            · intro c hc
              have hca : c ∈ (cutChar (rest1.drop 2) '/').1 :=
                parseAuthorityGo_sub
                  (fun hm => h1 ((List.drop_sublist _ _).subset (cutChar_fst_subset '%' hm)))
                  hpa c hc
              exact (List.drop_sublist _ _).subset (cutChar_fst_subset c hca)
            · subst hp0
              refine escapedPath_facts hp2 ?_ ?_ hrp0
              · intro hm
                rcases hsub2 '#' hm with hm' | hm'
                · exact h2 hm'
                · exact absurd hm' (by decide)
              · intro c hc
                rcases hsub2 c hc with hm' | hm'
                · exact h3 c hm'
                · rw [hm']
                  decide
      · repeat rw [if_neg hA] at h
        cases hsp : setPathGo rest1 with
        | error e =>
          rw [hsp] at h
          cases h
        | ok pr =>
          obtain ⟨p0, rp0⟩ := pr
          rw [hsp] at h
          cases h
          rw [setPathGo_eq h1] at hsp
          have hinj := Except.ok.inj hsp
          have hp0 : p0 = rest1 := (Prod.mk.inj hinj).1.symm
          have hrp0 := (Prod.mk.inj hinj).2.symm
          refine ⟨rfl, ?_, ?_⟩
          · intro c hc
            exact absurd hc (List.not_mem_nil c)
          · subst hp0
            exact escapedPath_facts h1 h2 h3 hrp0

/-! ### parseGo -/

theorem parseGo_facts {r : Str} {u : GoURL} (h1 : '%' ∉ r) (h2 : '#' ∉ r)
    (h3 : ∀ c ∈ r, c.toNat < 128) (h : parseGo r = .ok u) :
    ('%' ∉ u.rawQuery ∧ '#' ∉ u.rawQuery) ∧ ('%' ∉ u.host ∧ '#' ∉ u.host) ∧
      ('#' ∉ escapedPathGo u.path u.rawPath ∧
        ('%' ∉ escapedPathGo u.path u.rawPath ∨
          ∃ x, escapedPathGo u.path u.rawPath = escapeStr x Mode.path ∧ '#' ∉ x ∧
            ∀ c ∈ x, c.toNat < 128)) := by
  unfold parseGo at h
  by_cases hctl : containsCTL r = true
  · rw [if_pos hctl] at h
    cases h
  · rw [if_neg hctl] at h
    by_cases hstar : r = strOf "*"
    · rw [if_pos hstar] at h
      cases h
      refine ⟨⟨List.not_mem_nil '%', List.not_mem_nil '#'⟩,
        ⟨List.not_mem_nil '%', List.not_mem_nil '#'⟩, ?_, .inl ?_⟩
      · show '#' ∉ escapedPathGo (strOf "*") []
        decide
      · show '%' ∉ escapedPathGo (strOf "*") []
        decide
    · rw [if_neg hstar] at h
      cases hgs : getSchemeGo r with
      | error e =>
        rw [hgs] at h
        cases h
      | ok pr =>
        obtain ⟨scheme0, rest0⟩ := pr
        rw [hgs] at h
        simp only [] at h
        have hrest0 : ∀ c ∈ rest0, c ∈ r := getSchemeGo_sub hgs
        split at h
        · obtain ⟨hq, hhost, hpath⟩ := parseAfterQuery_facts
            (fun hm => h1 (hrest0 _ ((List.take_sublist _ _).subset hm)))
            (fun hm => h2 (hrest0 _ ((List.take_sublist _ _).subset hm)))
            (fun c hc => h3 c (hrest0 c ((List.take_sublist _ _).subset hc))) h
          refine ⟨?_, ⟨?_, ?_⟩, hpath⟩
          · rw [hq]
            simp
          · intro hm
            exact h1 (hrest0 _ ((List.take_sublist _ _).subset (hhost '%' hm)))
          · intro hm
            exact h2 (hrest0 _ ((List.take_sublist _ _).subset (hhost '#' hm)))
        · obtain ⟨hq, hhost, hpath⟩ := parseAfterQuery_facts
            (fun hm => h1 (hrest0 _ (cutChar_fst_subset _ hm)))
            (fun hm => h2 (hrest0 _ (cutChar_fst_subset _ hm)))
            (fun c hc => h3 c (hrest0 c (cutChar_fst_subset c hc))) h
          refine ⟨⟨?_, ?_⟩, ⟨?_, ?_⟩, hpath⟩
          · rw [hq]
            exact fun hm => h1 (hrest0 _ (cutChar_snd_subset _ hm))
          · rw [hq]
            exact fun hm => h2 (hrest0 _ (cutChar_snd_subset _ hm))
          · intro hm
            exact h1 (hrest0 _ (cutChar_fst_subset _ (hhost '%' hm)))
          · intro hm
            exact h2 (hrest0 _ (cutChar_fst_subset _ (hhost '#' hm)))

/-! ### urlParse / parseUrl -/

theorem urlParseGo_facts {raw : Str} {u : GoURL} (h1 : '%' ∉ raw)
    (h3 : ∀ c ∈ raw, c.toNat < 128) (h : urlParseGo raw = .ok u) :
    ('%' ∉ u.rawQuery ∧ '#' ∉ u.rawQuery) ∧ ('%' ∉ u.host ∧ '#' ∉ u.host) ∧
      ('#' ∉ escapedPathGo u.path u.rawPath ∧
        ('%' ∉ escapedPathGo u.path u.rawPath ∨
          ∃ x, escapedPathGo u.path u.rawPath = escapeStr x Mode.path ∧ '#' ∉ x ∧
            ∀ c ∈ x, c.toNat < 128)) := by
  unfold urlParseGo at h
  simp only [] at h
  cases hpg : parseGo (cutChar raw '#').1 with
  | error e =>
    rw [hpg] at h
    cases h
  | ok url =>
    rw [hpg] at h
    have h' : (if (cutChar raw '#').2.1 = [] then Except.ok url
        else match unescape Mode.fragment (cutChar raw '#').2.1 with
          | Except.error e => Except.error e
          | Except.ok f => Except.ok { url with fragment := f }) = Except.ok u := h
    have hfacts := parseGo_facts (fun hm => h1 (cutChar_fst_subset '%' hm))
      cutChar_fst_no_sep (fun c hc => h3 c (cutChar_fst_subset c hc)) hpg
    by_cases hfr : (cutChar raw '#').2.1 = []
    · rw [if_pos hfr] at h'
      cases h'
      exact hfacts
    · rw [if_neg hfr] at h'
      cases hun : unescape Mode.fragment (cutChar raw '#').2.1 with
      | error e =>
        rw [hun] at h'
        cases h'
      | ok f =>
        rw [hun] at h'
        cases h'
        exact hfacts

theorem parseUrlGo_eq {raw : Str} (h1 : '%' ∉ raw) {u : GoURL}
    (h : parseUrlGo raw = .ok u) : urlParseGo raw = .ok u := by
  unfold parseUrlGo at h
  cases hu : urlParseGo raw with
  | ok u' =>
    rw [hu] at h
    exact h
  | error e =>
    rw [hu] at h
    have h' : (if e = UErr.escapeErr then urlParseGo (expandChar raw '%' (strOf "%25"))
        else Except.error e) = Except.ok u := h
    by_cases he : e = UErr.escapeErr
    · rw [if_pos he, expandChar_noop h1, hu] at h'
      cases h'
    · rw [if_neg he] at h'
      cases h'

theorem ite_take_cases {P : Prop} [Decidable P] {R1 : Str} {n : Nat} :
    (if P then R1.take n else R1) = R1 ∨ ∃ m, (if P then R1.take n else R1) = R1.take m := by
  by_cases h : P
  · rw [if_pos h]
    exact .inr ⟨n, rfl⟩
  · rw [if_neg h]
    exact .inl rfl

theorem assemble_no_hash {host path C2 C4 C5 R2 : Str}
    (hhost : '#' ∉ host) (hpath : '#' ∉ path) (hC2 : '#' ∉ C2) (hC4 : '#' ∉ C4)
    (hC5 : '#' ∉ C5)
    (hR2 : R2 = collapseGo (host ++ C2 ++ path ++ C4 ++ C5) '/' false ∨
      ∃ m, R2 = (collapseGo (host ++ C2 ++ path ++ C4 ++ C5) '/' false).take m) :
    '#' ∉ trimTrailing R2 (strOf "/.") := by
  intro hx
  have hx1 := trimTrailing_subset _ hx
  have hBOK : '#' ∉ collapseGo (host ++ C2 ++ path ++ C4 ++ C5) '/' false := by
    intro hB
    rcases collapseGo_mem _ hB with hB' | hB'
    · rcases List.mem_append.mp hB' with hB1 | hB1
      · rcases List.mem_append.mp hB1 with hB2 | hB2
        · rcases List.mem_append.mp hB2 with hB3 | hB3
          · rcases List.mem_append.mp hB3 with hB4 | hB4
            · exact hhost hB4
            · exact hC2 hB4
          · exact hpath hB3
        · exact hC4 hB2
      · exact hC5 hB1
    · exact absurd hB' (by decide)
  rcases hR2 with h2 | ⟨m, h2⟩
  · rw [h2] at hx1
    exact hBOK hx1
  · rw [h2] at hx1
    exact hBOK ((List.take_sublist _ _).subset hx1)

/-- C5 (amended): for every ASCII input containing no percent character on which
`NormalizeURL` succeeds, the canonical output contains no `#` character. -/
theorem c5_theorem (s out : Str) (hA : ∀ c ∈ s, c.toNat < 128) (hP : '%' ∉ s)
    (h : NormalizeURL s = .ok out) : '#' ∉ out := by
  obtain ⟨hrawP, hrawA⟩ := prepare_facts hP hA
  unfold NormalizeURL at h
  simp only [] at h
  split at h
  · cases h
  rename_i u hpu
  have hu6 : urlParseGo (prepare s) = .ok u := parseUrlGo_eq hrawP hpu
  obtain ⟨⟨hq1, hq2⟩, ⟨hh1, hh2⟩, hp1, hp2⟩ := urlParseGo_facts hrawP hrawA hu6
  split at h
  · cases h
  rename_i hp hhp
  split at h
  · cases h
  rename_i path hpp
  split at h
  · cases h
  rename_i query hqq
  have hhost : '#' ∉ hp.host := normalizeHost_no_hash hh2 hhp
  have hpath : '#' ∉ path := by
    rcases hp2 with hplain | ⟨x, hx, hxh, hxa⟩
    · exact normalizePath_no_hash_plain hp1 hplain hpp
    · rw [hx] at hpp
      exact normalizePath_no_hash_escaped hxh hxa hpp
  have hquery : '#' ∉ query := normalizeQuery_no_hash hq2 hq1 hqq
  cases h
  have hC2 : '#' ∉ (if hp.host ≠ [] ∧ path ≠ [] ∧ ¬ startsWith path (strOf "/") = true
      then strOf "/" else ([] : Str)) :=
    not_mem_ite (by decide) (List.not_mem_nil '#')
  have hC4 : '#' ∉ (if ((u.rawQuery ≠ [] ∨ endsWith (prepare s) (strOf "?") = true) ∧
        (endsWith u.path (strOf "/") = true ∨ endsWith u.path (strOf ".") = true)) ∧
      ¬ endsWith path (strOf "/") = true then strOf "/" else ([] : Str)) :=
    not_mem_ite (by decide) (List.not_mem_nil '#')
  have hC5 : '#' ∉ (if query ≠ [] then strOf "?" ++ query
      else if u.forceQuery = true then strOf "?" else ([] : Str)) :=
    not_mem_ite (not_mem_append2 (by decide) hquery)
      (not_mem_ite (by decide) (List.not_mem_nil '#'))
  exact assemble_no_hash hhost hpath hC2 hC4 hC5 ite_take_cases

/-- C5 counterexample: the escaped input `x/a%23b` is accepted and its canonical
output `x/a#b` contains `#`, refuting the unrestricted claim. -/
theorem c5_counterexample :
    NormalizeURL (strOf "x/a%23b") = .ok (strOf "x/a#b") ∧ '#' ∈ strOf "x/a#b" := by
  constructor
  · decide
  · decide

/-- C5 witness: the theorem applied to the concrete input `a.com/p#f`. -/
theorem c5_witness : '#' ∉ strOf "a.com/p" :=
  c5_theorem (strOf "a.com/p#f") (strOf "a.com/p") (by decide) (by decide) (by decide)
